import Mathlib

/-!
Verification of the minesweeper board-generation engine
(SquareSet / SetStore / Solver / Perturbator / Generator).

The definitions below are a shallow embedding of the C++ sources:
  squareset.h / squareset.cpp  (3x3 bitmask square sets)
  grid.h / knowledge.h / gamedata.h  (grids, player knowledge)
  game.cpp  (mineLookup)
  solver.cpp  (SetStore, Solver)
  perturbator.cpp  (mineperturb and helpers)
  generator.cpp  (minegen, Generator::generate)

Modelling conventions:
  * machine integers become Nat / Int (coordinates are Int, sizes Nat);
    the 9-bit `SquareSetMask` is a Nat, with `mask < 512` as the class
    invariant (the spec describes the mask as a 9-bit word);
  * C++ `assert` statements are modelled as run-time guards: a function
    containing an assert returns an `Option`, with `none` standing for the
    abort of a failed assertion;
  * `std::default_random_engine` is modelled by a concrete linear
    congruential engine (minstd), and `std::shuffle` /
    `std::uniform_int_distribution` (whose exact output sequences are
    implementation-defined) by explicit deterministic draws from it;
  * unbounded C++ loops take an explicit fuel argument; running out of
    fuel yields `none`.
-/

namespace Mine

/-! ## Mask constants (squareset.h, enum SquareSetMaskFlag) -/

def TOP_LEFT : Nat := 0x001
def TOP : Nat := 0x002
def TOP_RIGHT : Nat := 0x004
def LEFT : Nat := 0x008
def CENTER : Nat := 0x010
def RIGHT : Nat := 0x020
def BOTTOM_LEFT : Nat := 0x040
def BOTTOM : Nat := 0x080
def BOTTOM_RIGHT : Nat := 0x100

def LEFT_COLUMN : Nat := TOP_LEFT ||| LEFT ||| BOTTOM_LEFT
def CENTER_COLUMN : Nat := TOP ||| CENTER ||| BOTTOM
def RIGHT_COLUMN : Nat := TOP_RIGHT ||| RIGHT ||| BOTTOM_RIGHT
def TOP_ROW : Nat := TOP_LEFT ||| TOP ||| TOP_RIGHT
def CENTER_ROW : Nat := LEFT ||| CENTER ||| RIGHT
def BOTTOM_ROW : Nat := BOTTOM_LEFT ||| BOTTOM ||| BOTTOM_RIGHT

/-- Complement of a mask, from `SquareSetMask::operator~`:
`value() ^ ((BOTTOM_RIGHT << 1) - 1)`, i.e. XOR with 0x1FF. -/
def maskCompl (m : Nat) : Nat := m ^^^ 511

/-- Embedding of `popcount(uint16_t)` from squareset.h: counts the bits of a
16-bit word with the SWAR bit trick.  The four intermediate values never
exceed 16 bits, so plain Nat arithmetic is faithful. -/
def popcount (w : Nat) : Nat :=
  let w1 := (w &&& 0x5555) + ((w &&& 0xAAAA) >>> 1)
  let w2 := (w1 &&& 0x3333) + ((w1 &&& 0xCCCC) >>> 2)
  let w3 := (w2 &&& 0x0F0F) + ((w2 &&& 0xF0F0) >>> 4)
  let w4 := (w3 &&& 0x00FF) + ((w3 &&& 0xFF00) >>> 8)
  w4

/-- Reference bit counter: `bitcount k w` is the number of 1 bits among the
low `k` bits of `w`. -/
def bitcount : Nat → Nat → Nat
  | 0, _ => 0
  | k + 1, w => w % 2 + bitcount k (w / 2)

/-- Single-byte version of the first three SWAR steps of `popcount`. -/
def pc8 (b : Nat) : Nat :=
  let b1 := (b &&& 0x55) + ((b &&& 0xAA) >>> 1)
  let b2 := (b1 &&& 0x33) + ((b1 &&& 0xCC) >>> 2)
  (b2 &&& 0x0F) + ((b2 &&& 0xF0) >>> 4)

theorem splitAnd (x y mh ml : Nat) (hy : y < 256) (hml : ml < 256) :
    (256 * x + y) &&& (256 * mh + ml) = 256 * (x &&& mh) + (y &&& ml) := by
  apply Nat.eq_of_testBit_eq
  intro j
  have h256 : (256 : Nat) = 2 ^ 8 := by norm_num
  rw [h256] at *
  rw [Nat.testBit_and, Nat.testBit_mul_pow_two_add _ hy,
    Nat.testBit_mul_pow_two_add _ hml,
    Nat.testBit_mul_pow_two_add _ (Nat.and_lt_two_pow y hml)]
  by_cases hj : j < 8
  · simp [hj]
  · simp [hj]

theorem splitDiv (x y d : Nat) (hx : x % 2 ^ d = 0) :
    (256 * x + y) / 2 ^ d = 256 * (x / 2 ^ d) + y / 2 ^ d := by
  obtain ⟨x2, hx2⟩ : 2 ^ d ∣ x := Nat.dvd_of_mod_eq_zero hx
  subst hx2
  have h1 : 256 * (2 ^ d * x2) + y = 2 ^ d * (256 * x2) + y := by ring
  rw [h1, Nat.mul_add_div (Nat.two_pow_pos d), Nat.mul_div_cancel_left _ (Nat.two_pow_pos d)]

theorem maskModZero (x m d : Nat) (hm : m &&& (2 ^ d - 1) = 0) :
    (x &&& m) % 2 ^ d = 0 := by
  rw [← Nat.and_pow_two_sub_one_eq_mod, Nat.and_assoc, hm, Nat.and_zero]

/-- Byte-splitting of `popcount`: the first three SWAR steps act on the two
bytes independently, and the fourth adds the two byte counts. -/
theorem popcount_split (hi lo : Nat) (hlo : lo < 256) :
    popcount (256 * hi + lo) = pc8 hi + pc8 lo := by
  simp only [popcount]
  have hb2 : ((256 : Nat) * hi + lo) &&& 0x5555 = 256 * (hi &&& 0x55) + (lo &&& 0x55) := by
    have := splitAnd hi lo 0x55 0x55 hlo (by norm_num)
    simpa using this
  have hbA : ((256 : Nat) * hi + lo) &&& 0xAAAA = 256 * (hi &&& 0xAA) + (lo &&& 0xAA) := by
    have := splitAnd hi lo 0xAA 0xAA hlo (by norm_num)
    simpa using this
  have hdiv1 : (256 * (hi &&& 0xAA) + (lo &&& 0xAA)) >>> 1
      = 256 * ((hi &&& 0xAA) >>> 1) + ((lo &&& 0xAA) >>> 1) := by
    rw [Nat.shiftRight_eq_div_pow, Nat.shiftRight_eq_div_pow, Nat.shiftRight_eq_div_pow]
    exact splitDiv _ _ 1 (maskModZero hi 0xAA 1 (by decide))
  set h1 := (hi &&& 0x55) + ((hi &&& 0xAA) >>> 1) with hh1
  set l1 := (lo &&& 0x55) + ((lo &&& 0xAA) >>> 1) with hl1
  have hw1 : (((256 : Nat) * hi + lo) &&& 0x5555) + ((((256 : Nat) * hi + lo) &&& 0xAAAA) >>> 1)
      = 256 * h1 + l1 := by
    rw [hb2, hbA, hdiv1, hh1, hl1]; ring
  have hl1lt : l1 < 256 := by
    have h1le : lo &&& 0x55 ≤ 0x55 := Nat.and_le_right
    have h2le : (lo &&& 0xAA) >>> 1 ≤ 0xAA >>> 1 := by
      rw [Nat.shiftRight_eq_div_pow, Nat.shiftRight_eq_div_pow]
      exact Nat.div_le_div_right Nat.and_le_right
    simp only [hl1]; omega
  rw [hw1]
  have hb3 : ((256 : Nat) * h1 + l1) &&& 0x3333 = 256 * (h1 &&& 0x33) + (l1 &&& 0x33) := by
    have := splitAnd h1 l1 0x33 0x33 hl1lt (by norm_num)
    simpa using this
  have hbC : ((256 : Nat) * h1 + l1) &&& 0xCCCC = 256 * (h1 &&& 0xCC) + (l1 &&& 0xCC) := by
    have := splitAnd h1 l1 0xCC 0xCC hl1lt (by norm_num)
    simpa using this
  have hdiv2 : (256 * (h1 &&& 0xCC) + (l1 &&& 0xCC)) >>> 2
      = 256 * ((h1 &&& 0xCC) >>> 2) + ((l1 &&& 0xCC) >>> 2) := by
    rw [Nat.shiftRight_eq_div_pow, Nat.shiftRight_eq_div_pow, Nat.shiftRight_eq_div_pow]
    exact splitDiv _ _ 2 (maskModZero h1 0xCC 2 (by decide))
  set h2 := (h1 &&& 0x33) + ((h1 &&& 0xCC) >>> 2) with hh2
  set l2 := (l1 &&& 0x33) + ((l1 &&& 0xCC) >>> 2) with hl2
  have hw2 : (((256 : Nat) * h1 + l1) &&& 0x3333) + ((((256 : Nat) * h1 + l1) &&& 0xCCCC) >>> 2)
      = 256 * h2 + l2 := by
    rw [hb3, hbC, hdiv2, hh2, hl2]; ring
  have hl2lt : l2 < 256 := by
    have h1le : l1 &&& 0x33 ≤ 0x33 := Nat.and_le_right
    have h2le : (l1 &&& 0xCC) >>> 2 ≤ 0xCC >>> 2 := by
      rw [Nat.shiftRight_eq_div_pow, Nat.shiftRight_eq_div_pow]
      exact Nat.div_le_div_right Nat.and_le_right
    simp only [hl2]; omega
  rw [hw2]
  have hb4 : ((256 : Nat) * h2 + l2) &&& 0x0F0F = 256 * (h2 &&& 0x0F) + (l2 &&& 0x0F) := by
    have := splitAnd h2 l2 0x0F 0x0F hl2lt (by norm_num)
    simpa using this
  have hbF : ((256 : Nat) * h2 + l2) &&& 0xF0F0 = 256 * (h2 &&& 0xF0) + (l2 &&& 0xF0) := by
    have := splitAnd h2 l2 0xF0 0xF0 hl2lt (by norm_num)
    simpa using this
  have hdiv3 : (256 * (h2 &&& 0xF0) + (l2 &&& 0xF0)) >>> 4
      = 256 * ((h2 &&& 0xF0) >>> 4) + ((l2 &&& 0xF0) >>> 4) := by
    rw [Nat.shiftRight_eq_div_pow, Nat.shiftRight_eq_div_pow, Nat.shiftRight_eq_div_pow]
    exact splitDiv _ _ 4 (maskModZero h2 0xF0 4 (by decide))
  set h3 := (h2 &&& 0x0F) + ((h2 &&& 0xF0) >>> 4) with hh3
  set l3 := (l2 &&& 0x0F) + ((l2 &&& 0xF0) >>> 4) with hl3
  have hw3 : (((256 : Nat) * h2 + l2) &&& 0x0F0F) + ((((256 : Nat) * h2 + l2) &&& 0xF0F0) >>> 4)
      = 256 * h3 + l3 := by
    rw [hb4, hbF, hdiv3, hh3, hl3]; ring
  have hl3lt : l3 < 256 := by
    have h1le : l2 &&& 0x0F ≤ 0x0F := Nat.and_le_right
    have h2le : (l2 &&& 0xF0) >>> 4 ≤ 0xF0 >>> 4 := by
      rw [Nat.shiftRight_eq_div_pow, Nat.shiftRight_eq_div_pow]
      exact Nat.div_le_div_right Nat.and_le_right
    simp only [hl3]; omega
  rw [hw3]
  have hff : ((256 : Nat) * h3 + l3) &&& 0x00FF = l3 := by
    have h : ((256 : Nat) * h3 + l3) &&& 0x00FF = (256 * h3 + l3) % 256 := by
      have h2 := Nat.and_pow_two_sub_one_eq_mod (256 * h3 + l3) 8
      norm_num at h2
      exact h2
    rw [h, Nat.mul_add_mod, Nat.mod_eq_of_lt hl3lt]
  have hFF00 : ((256 : Nat) * h3 + l3) &&& 0xFF00 = 256 * (h3 &&& 0xFF) := by
    have := splitAnd h3 l3 0xFF 0 hl3lt (by norm_num)
    simpa using this
  have hshift : ((256 : Nat) * (h3 &&& 0xFF)) >>> 8 = h3 &&& 0xFF := by
    rw [Nat.shiftRight_eq_div_pow]
    norm_num
  rw [hff, hFF00, hshift]
  have hpc8hi : pc8 hi = h3 &&& 0xFF := by
    simp only [pc8]
    rw [← hh1, ← hh2, ← hh3]
    have hlt : h3 < 256 := by
      have h1le : h2 &&& 0x0F ≤ 0x0F := Nat.and_le_right
      have h2le : (h2 &&& 0xF0) >>> 4 ≤ 0xF0 >>> 4 := by
        rw [Nat.shiftRight_eq_div_pow, Nat.shiftRight_eq_div_pow]
        exact Nat.div_le_div_right Nat.and_le_right
      simp only [hh3]; omega
    have heq := Nat.and_pow_two_sub_one_of_lt_two_pow (x := h3) (n := 8) (by norm_num [hlt])
    norm_num at heq
    rw [heq]
  have hpc8lo : pc8 lo = l3 := by
    simp only [pc8]
  rw [hpc8hi, hpc8lo]
  ring

set_option maxHeartbeats 2000000 in
set_option maxRecDepth 4000 in
theorem pc8_eq_bitcount : ∀ b < 256, pc8 b = bitcount 8 b := by decide

theorem bitcount_split (k j a b : Nat) (hb : b < 2 ^ k) :
    bitcount (j + k) (2 ^ k * a + b) = bitcount j a + bitcount k b := by
  induction k generalizing b with
  | zero =>
    have hb0 : b = 0 := by omega
    subst hb0
    simp [bitcount]
  | succ k ih =>
    have h1 : j + (k + 1) = (j + k) + 1 := by omega
    rw [h1]
    show (2 ^ (k + 1) * a + b) % 2 + bitcount (j + k) ((2 ^ (k + 1) * a + b) / 2)
        = bitcount j a + bitcount (k + 1) b
    have hmod : (2 ^ (k + 1) * a + b) % 2 = b % 2 := by
      have : 2 ^ (k + 1) * a = 2 * (2 ^ k * a) := by ring
      rw [this, Nat.mul_add_mod]
    have hdiv : (2 ^ (k + 1) * a + b) / 2 = 2 ^ k * a + b / 2 := by
      have : 2 ^ (k + 1) * a + b = 2 * (2 ^ k * a) + b := by ring
      rw [this, Nat.mul_add_div (by norm_num)]
    rw [hmod, hdiv, ih (b / 2) (by omega)]
    show b % 2 + (bitcount j a + bitcount k (b / 2)) = bitcount j a + (b % 2 + bitcount k (b / 2))
    ring

/-- The SWAR `popcount` computes the number of 1 bits, for every 16-bit word. -/
theorem popcount_eq_bitcount (w : Nat) (hw : w < 65536) : popcount w = bitcount 16 w := by
  have hsplit : w = 256 * (w / 256) + w % 256 := by omega
  conv_lhs => rw [hsplit]
  rw [popcount_split _ _ (Nat.mod_lt _ (by norm_num))]
  rw [pc8_eq_bitcount _ (by omega), pc8_eq_bitcount _ (Nat.mod_lt _ (by norm_num))]
  conv_rhs => rw [hsplit]
  have h16 : (16 : Nat) = 8 + 8 := by norm_num
  have h256 : (256 : Nat) * (w / 256) + w % 256 = 2 ^ 8 * (w / 256) + w % 256 := by norm_num
  rw [h16, h256, bitcount_split 8 8 _ _ (by omega)]

theorem bitcount_eq_filter_length (k : Nat) : ∀ w : Nat,
    bitcount k w = ((List.range k).filter (fun i => w.testBit i)).length := by
  induction k with
  | zero => intro w; simp [bitcount]
  | succ k ih =>
    intro w
    rw [List.range_succ_eq_map]
    show w % 2 + bitcount k (w / 2) = _
    rw [ih (w / 2)]
    have hmap : (List.map (· + 1) (List.range k)).filter (fun i => w.testBit i)
        = List.map (· + 1) ((List.range k).filter (fun i => (w / 2).testBit i)) := by
      rw [List.filter_map]
      congr 1
      apply List.filter_congr
      intro i _
      simp [Function.comp, Nat.testBit_add_one]
    rw [List.filter_cons]
    cases h0 : w.testBit 0 with
    | true =>
      have hw2 : w % 2 = 1 := by
        rw [Nat.testBit_zero] at h0
        exact of_decide_eq_true h0
      simp only [h0, if_pos, hmap, List.length_cons, List.length_map]
      omega
    | false =>
      have hw2 : w % 2 = 0 := by
        rw [Nat.testBit_zero] at h0
        have := of_decide_eq_false h0
        omega
      simp only [h0, Bool.false_eq_true, if_neg, not_false_iff, hmap, List.length_map]
      omega

/-! ## SquareSet (squareset.h / squareset.cpp) -/

/-- Model of `move_left`: clear the right column, then shift by one column. -/
def mvLeft (m : Nat) : Nat := (m &&& maskCompl RIGHT_COLUMN) <<< 1

/-- Model of `move_right`: clear the left column, then shift by one column. -/
def mvRight (m : Nat) : Nat := (m &&& maskCompl LEFT_COLUMN) >>> 1

/-- Model of `move_up`: clear the bottom row, then shift by one row. -/
def mvUp (m : Nat) : Nat := (m &&& maskCompl BOTTOM_ROW) <<< 3

/-- Model of `move_down`: clear the top row, then shift by one row. -/
def mvDown (m : Nat) : Nat := (m &&& maskCompl TOP_ROW) >>> 3

/-- Model of class `SquareSet`: the anchor `(x, y)` of a 3x3 window and a
9-bit membership mask. -/
structure SquareSet where
  x : Int
  y : Int
  mask : Nat
deriving DecidableEq, Repr

/-- The x-loop of `SquareSet::normalize`: shift right until the left column
is inhabited.  The loop is given explicit fuel to stay structurally
recursive (and hence kernel-computable); a non-empty 9-bit mask exits within
2 iterations, so the fuel of 9 used by `normalize` never runs out.  The extra
`m = 0` exit makes the function total on degenerate masks. -/
def normShiftX : Nat → Int → Nat → Int × Nat
  | 0, x, m => (x, m)
  | fuel + 1, x, m =>
    if m &&& LEFT_COLUMN ≠ 0 ∨ m = 0 then (x, m)
    else normShiftX fuel (x + 1) (mvRight m)

/-- The y-loop of `SquareSet::normalize`: shift down until the top row is
inhabited. -/
def normShiftY : Nat → Int → Nat → Int × Nat
  | 0, y, m => (y, m)
  | fuel + 1, y, m =>
    if m &&& TOP_ROW ≠ 0 ∨ m = 0 then (y, m)
    else normShiftY fuel (y + 1) (mvDown m)

/-- Embedding of `SquareSet::normalize` (squareset.cpp). -/
def SquareSet.normalize (s : SquareSet) : SquareSet :=
  if s.mask = 0 then s
  else
    let xr := normShiftX 9 s.x s.mask
    let yr := normShiftY 9 s.y xr.2
    ⟨xr.1, yr.1, yr.2⟩

/-- The x-loop exits within `k` iterations. -/
def exitsInX : Nat → Nat → Prop
  | 0, m => m &&& LEFT_COLUMN ≠ 0 ∨ m = 0
  | k + 1, m => m &&& LEFT_COLUMN ≠ 0 ∨ m = 0 ∨ exitsInX k (mvRight m)

/-- The y-loop exits within `k` iterations. -/
def exitsInY : Nat → Nat → Prop
  | 0, m => m &&& TOP_ROW ≠ 0 ∨ m = 0
  | k + 1, m => m &&& TOP_ROW ≠ 0 ∨ m = 0 ∨ exitsInY k (mvDown m)

instance : ∀ k m, Decidable (exitsInX k m) := by
  intro k
  induction k with
  | zero => intro m; exact inferInstanceAs (Decidable (_ ∨ _))
  | succ k ih =>
    intro m
    have := ih (mvRight m)
    exact inferInstanceAs (Decidable (_ ∨ _ ∨ _))

instance : ∀ k m, Decidable (exitsInY k m) := by
  intro k
  induction k with
  | zero => intro m; exact inferInstanceAs (Decidable (_ ∨ _))
  | succ k ih =>
    intro m
    have := ih (mvDown m)
    exact inferInstanceAs (Decidable (_ ∨ _ ∨ _))

set_option maxRecDepth 4000 in
theorem exitsInX_all : ∀ m < 512, exitsInX 2 m := by decide

set_option maxRecDepth 4000 in
theorem exitsInY_all : ∀ m < 512, exitsInY 2 m := by decide

/-- Iterated application of a mask move. -/
def iterN (f : Nat → Nat) : Nat → Nat → Nat
  | 0, m => m
  | k + 1, m => iterN f k (f m)

/-- Embedding of the re-anchoring constructor
`SquareSet::SquareSet(int x, int y, const SquareSet&)`: if the anchors are at
distance 3 or more on either axis the mask stays default-initialized (empty);
otherwise the mask is moved column by column, then row by row. -/
def SquareSet.reanchor (x y : Int) (o : SquareSet) : SquareSet :=
  if 3 ≤ (o.x - x).natAbs ∨ 3 ≤ (o.y - y).natAbs then ⟨x, y, 0⟩
  else
    let mx := if x < o.x then iterN mvLeft (o.x - x).toNat o.mask
              else iterN mvRight (x - o.x).toNat o.mask
    let my := if y < o.y then iterN mvUp (o.y - y).toNat mx
              else iterN mvDown (y - o.y).toNat mx
    ⟨x, y, my⟩

/-- Embedding of `operator&(const SquareSet&, const SquareSet&)`. -/
def SquareSet.inter (a b : SquareSet) : SquareSet :=
  ⟨a.x, a.y, a.mask &&& (SquareSet.reanchor a.x a.y b).mask⟩

/-- Embedding of `operator-(const SquareSet&, const SquareSet&)`. -/
def SquareSet.sdiff (a b : SquareSet) : SquareSet :=
  ⟨a.x, a.y, a.mask &&& maskCompl (SquareSet.reanchor a.x a.y b).mask⟩

/-- Embedding of `operator<(const SquareSet&, const SquareSet&)`:
lexicographic on `(x, y, mask)`. -/
def ssLt (a b : SquareSet) : Bool :=
  a.x < b.x || (a.x == b.x && (a.y < b.y || (a.y == b.y && a.mask < b.mask)))

/-- Embedding of `SquareSetMask::count()`: `popcount(value())`, where the
argument is implicitly converted to `uint16_t`. -/
def maskCount (m : Nat) : Nat := popcount (m % 65536)

/-- Membership test for the square at relative offset `(dx, dy)` of a mask. -/
def maskTest (m : Nat) (dx dy : Int) : Bool :=
  decide (0 ≤ dx) && decide (dx < 3) && decide (0 ≤ dy) && decide (dy < 3)
    && m.testBit (dy.toNat * 3 + dx.toNat)

/-- The absolute square `(px, py)` belongs to the square set `s`. -/
def SquareSet.containsSq (s : SquareSet) (px py : Int) : Bool :=
  maskTest s.mask (px - s.x) (py - s.y)

/-- The flags of `enumerateSquareSetMaskFlags` paired with the `mf2pt`
offsets, in iteration order of `foreachSquare`. -/
def flagOffsets : List (Nat × Int × Int) :=
  [(0, (0, 0)), (1, (1, 0)), (2, (2, 0)),
   (3, (0, 1)), (4, (1, 1)), (5, (2, 1)),
   (6, (0, 2)), (7, (1, 2)), (8, (2, 2))]

/-- The list of absolute squares of a square set, in the visit order of
`foreachSquare` (squareset.h). -/
def squaresList (s : SquareSet) : List (Int × Int) :=
  flagOffsets.filterMap (fun f =>
    if s.mask.testBit f.1 then some (s.x + f.2.1, s.y + f.2.2) else none)

/-! ### Bit-level facts about the mask moves -/

theorem mvLeft_lt (m : Nat) : mvLeft m < 512 := by
  show (m &&& maskCompl RIGHT_COLUMN) <<< 1 < 512
  rw [Nat.shiftLeft_eq]
  have h : m &&& maskCompl RIGHT_COLUMN ≤ maskCompl RIGHT_COLUMN := Nat.and_le_right
  have h2 : maskCompl RIGHT_COLUMN = 219 := by decide
  omega

theorem mvRight_lt (m : Nat) : mvRight m < 512 := by
  show (m &&& maskCompl LEFT_COLUMN) >>> 1 < 512
  rw [Nat.shiftRight_eq_div_pow]
  have h : m &&& maskCompl LEFT_COLUMN ≤ maskCompl LEFT_COLUMN := Nat.and_le_right
  have h2 : maskCompl LEFT_COLUMN = 438 := by decide
  omega

theorem mvUp_lt (m : Nat) : mvUp m < 512 := by
  show (m &&& maskCompl BOTTOM_ROW) <<< 3 < 512
  rw [Nat.shiftLeft_eq]
  have h : m &&& maskCompl BOTTOM_ROW ≤ maskCompl BOTTOM_ROW := Nat.and_le_right
  have h2 : maskCompl BOTTOM_ROW = 63 := by decide
  omega

theorem mvDown_lt (m : Nat) : mvDown m < 512 := by
  show (m &&& maskCompl TOP_ROW) >>> 3 < 512
  rw [Nat.shiftRight_eq_div_pow]
  have h : m &&& maskCompl TOP_ROW ≤ maskCompl TOP_ROW := Nat.and_le_right
  have h2 : maskCompl TOP_ROW = 504 := by decide
  omega

theorem testBit_ge9 (m : Nat) (hm : m < 512) (i : Nat) (hi : 9 ≤ i) :
    m.testBit i = false := by
  apply Nat.testBit_lt_two_pow
  calc m < 512 := hm
    _ = 2 ^ 9 := by norm_num
    _ ≤ 2 ^ i := Nat.pow_le_pow_right (by norm_num) hi

set_option maxRecDepth 4000 in
theorem mvRight_testBit9 : ∀ m < 512, ∀ i < 9,
    (mvRight m).testBit i = (decide (i % 3 < 2) && m.testBit (i + 1)) := by decide

theorem mvRight_testBit (m : Nat) (hm : m < 512) (i : Nat) :
    (mvRight m).testBit i = (decide (i % 3 < 2) && m.testBit (i + 1)) := by
  by_cases hi : i < 9
  · exact mvRight_testBit9 m hm i hi
  · rw [testBit_ge9 _ (mvRight_lt m) i (by omega), testBit_ge9 m hm (i + 1) (by omega)]
    simp

set_option maxRecDepth 4000 in
theorem mvLeft_testBit9 : ∀ m < 512, ∀ i < 9,
    (mvLeft m).testBit i = (decide (0 < i % 3) && m.testBit (i - 1)) := by decide

theorem mvLeft_testBit (m : Nat) (hm : m < 512) (i : Nat) :
    (mvLeft m).testBit i = (decide (0 < i % 3) && m.testBit (i - 1)) := by
  by_cases hi : i < 9
  · exact mvLeft_testBit9 m hm i hi
  · rw [testBit_ge9 _ (mvLeft_lt m) i (by omega)]
    by_cases h3 : 0 < i % 3
    · rw [testBit_ge9 m hm (i - 1) (by omega)]
      simp
    · simp [h3]

set_option maxRecDepth 4000 in
theorem mvUp_testBit9 : ∀ m < 512, ∀ i < 9,
    (mvUp m).testBit i = (decide (3 ≤ i) && (decide (i < 9) && m.testBit (i - 3))) := by decide

theorem mvUp_testBit (m : Nat) (hm : m < 512) (i : Nat) :
    (mvUp m).testBit i = (decide (3 ≤ i) && (decide (i < 9) && m.testBit (i - 3))) := by
  by_cases hi : i < 9
  · exact mvUp_testBit9 m hm i hi
  · rw [testBit_ge9 _ (mvUp_lt m) i (by omega)]
    have h9 : ¬ (i < 9) := hi
    simp [h9]

set_option maxRecDepth 4000 in
theorem mvDown_testBit9 : ∀ m < 512, ∀ i < 9,
    (mvDown m).testBit i = (decide (i < 6) && m.testBit (i + 3)) := by decide

theorem mvDown_testBit (m : Nat) (hm : m < 512) (i : Nat) :
    (mvDown m).testBit i = (decide (i < 6) && m.testBit (i + 3)) := by
  by_cases hi : i < 9
  · exact mvDown_testBit9 m hm i hi
  · rw [testBit_ge9 _ (mvDown_lt m) i (by omega)]
    have h6 : ¬ (i < 6) := by omega
    simp [h6]

/-! ### maskTest semantics of the moves -/

theorem maskTest_bounds {m : Nat} {dx dy : Int} (h : maskTest m dx dy = true) :
    0 ≤ dx ∧ dx < 3 ∧ 0 ≤ dy ∧ dy < 3 := by
  simp only [maskTest, Bool.and_eq_true, decide_eq_true_eq] at h
  exact ⟨h.1.1.1.1, h.1.1.1.2, h.1.1.2, h.1.2⟩

theorem maskTest_zero (dx dy : Int) : maskTest 0 dx dy = false := by
  simp [maskTest]

theorem maskTest_mvRight (m : Nat) (hm : m < 512) (dx dy : Int) :
    maskTest (mvRight m) dx dy = (maskTest m (dx + 1) dy && decide (0 ≤ dx)) := by
  by_cases hx0 : 0 ≤ dx
  case neg => simp [maskTest, hx0]
  by_cases hx3 : dx < 3
  case neg =>
    have h2 : ¬ (dx + 1 < 3) := by omega
    simp [maskTest, hx3, h2]
  by_cases hy0 : 0 ≤ dy
  case neg => simp [maskTest, hy0]
  by_cases hy3 : dy < 3
  case neg => simp [maskTest, hy3]
  interval_cases dx <;> interval_cases dy <;>
    simp [maskTest, mvRight_testBit m hm]

theorem maskTest_mvLeft (m : Nat) (hm : m < 512) (dx dy : Int) :
    maskTest (mvLeft m) dx dy = (maskTest m (dx - 1) dy && decide (dx < 3)) := by
  by_cases hx0 : 0 ≤ dx
  case neg =>
    have h2 : ¬ (0 ≤ dx - 1) := by omega
    simp [maskTest, hx0, h2]
  by_cases hx3 : dx < 3
  case neg => simp [maskTest, hx3]
  by_cases hy0 : 0 ≤ dy
  case neg => simp [maskTest, hy0]
  by_cases hy3 : dy < 3
  case neg => simp [maskTest, hy3]
  interval_cases dx <;> interval_cases dy <;>
    simp [maskTest, mvLeft_testBit m hm]

theorem maskTest_mvUp (m : Nat) (hm : m < 512) (dx dy : Int) :
    maskTest (mvUp m) dx dy = (maskTest m dx (dy - 1) && decide (dy < 3)) := by
  by_cases hx0 : 0 ≤ dx
  case neg => simp [maskTest, hx0]
  by_cases hx3 : dx < 3
  case neg => simp [maskTest, hx3]
  by_cases hy0 : 0 ≤ dy
  case neg =>
    have h2 : ¬ (0 ≤ dy - 1) := by omega
    simp [maskTest, hy0, h2]
  by_cases hy3 : dy < 3
  case neg => simp [maskTest, hy3]
  interval_cases dx <;> interval_cases dy <;>
    simp [maskTest, mvUp_testBit m hm]

theorem maskTest_mvDown (m : Nat) (hm : m < 512) (dx dy : Int) :
    maskTest (mvDown m) dx dy = (maskTest m dx (dy + 1) && decide (0 ≤ dy)) := by
  by_cases hx0 : 0 ≤ dx
  case neg => simp [maskTest, hx0]
  by_cases hx3 : dx < 3
  case neg => simp [maskTest, hx3]
  by_cases hy0 : 0 ≤ dy
  case neg => simp [maskTest, hy0]
  by_cases hy3 : dy < 3
  case neg =>
    have h2 : ¬ (dy + 1 < 3) := by omega
    simp [maskTest, hy3, h2]
  interval_cases dx <;> interval_cases dy <;>
    simp [maskTest, mvDown_testBit m hm]

theorem iterN_lt (f : Nat → Nat) (hf : ∀ m, f m < 512) (k m : Nat) (hm : m < 512) :
    iterN f k m < 512 := by
  induction k generalizing m with
  | zero => exact hm
  | succ k ih => exact ih (f m) (hf m)

theorem maskTest_iterRight (k : Nat) (m : Nat) (hm : m < 512) (dx dy : Int) :
    maskTest (iterN mvRight k m) dx dy = (maskTest m (dx + k) dy && decide (0 ≤ dx)) := by
  induction k generalizing m dx with
  | zero =>
    show maskTest m dx dy = (maskTest m (dx + (0 : Nat)) dy && decide (0 ≤ dx))
    by_cases h : 0 ≤ dx
    · simp [h]
    · simp [maskTest, h]
  | succ k ih =>
    show maskTest (iterN mvRight k (mvRight m)) dx dy = _
    rw [ih (mvRight m) (mvRight_lt m) dx]
    rw [maskTest_mvRight m hm (dx + k) dy]
    by_cases h : 0 ≤ dx
    · have h2 : (0 : Int) ≤ dx + k := by omega
      have harg : dx + (k : Int) + 1 = dx + ((k : Nat) + 1 : Nat) := by push_cast; ring
      rw [harg]
      simp [h, h2]
    · simp [h]

theorem maskTest_iterLeft (k : Nat) (m : Nat) (hm : m < 512) (dx dy : Int) :
    maskTest (iterN mvLeft k m) dx dy = (maskTest m (dx - k) dy && decide (dx < 3)) := by
  induction k generalizing m dx with
  | zero =>
    show maskTest m dx dy = (maskTest m (dx - (0 : Nat)) dy && decide (dx < 3))
    by_cases h : dx < 3
    · simp [h]
    · simp [maskTest, h]
  | succ k ih =>
    show maskTest (iterN mvLeft k (mvLeft m)) dx dy = _
    rw [ih (mvLeft m) (mvLeft_lt m) dx]
    rw [maskTest_mvLeft m hm (dx - k) dy]
    by_cases h : dx < 3
    · have h2 : dx - (k : Int) < 3 := by omega
      have harg : dx - (k : Int) - 1 = dx - ((k : Nat) + 1 : Nat) := by push_cast; ring
      rw [harg]
      simp [h, h2]
    · simp [h]

theorem maskTest_iterDown (k : Nat) (m : Nat) (hm : m < 512) (dx dy : Int) :
    maskTest (iterN mvDown k m) dx dy = (maskTest m dx (dy + k) && decide (0 ≤ dy)) := by
  induction k generalizing m dy with
  | zero =>
    show maskTest m dx dy = (maskTest m dx (dy + (0 : Nat)) && decide (0 ≤ dy))
    by_cases h : 0 ≤ dy
    · simp [h]
    · simp [maskTest, h]
  | succ k ih =>
    show maskTest (iterN mvDown k (mvDown m)) dx dy = _
    rw [ih (mvDown m) (mvDown_lt m) dy]
    rw [maskTest_mvDown m hm dx (dy + k)]
    by_cases h : 0 ≤ dy
    · have h2 : (0 : Int) ≤ dy + k := by omega
      have harg : dy + (k : Int) + 1 = dy + ((k : Nat) + 1 : Nat) := by push_cast; ring
      rw [harg]
      simp [h, h2]
    · simp [h]

theorem maskTest_iterUp (k : Nat) (m : Nat) (hm : m < 512) (dx dy : Int) :
    maskTest (iterN mvUp k m) dx dy = (maskTest m dx (dy - k) && decide (dy < 3)) := by
  induction k generalizing m dy with
  | zero =>
    show maskTest m dx dy = (maskTest m dx (dy - (0 : Nat)) && decide (dy < 3))
    by_cases h : dy < 3
    · simp [h]
    · simp [maskTest, h]
  | succ k ih =>
    show maskTest (iterN mvUp k (mvUp m)) dx dy = _
    rw [ih (mvUp m) (mvUp_lt m) dy]
    rw [maskTest_mvUp m hm dx (dy - k)]
    by_cases h : dy < 3
    · have h2 : dy - (k : Int) < 3 := by omega
      have harg : dy - (k : Int) - 1 = dy - ((k : Nat) + 1 : Nat) := by push_cast; ring
      rw [harg]
      simp [h, h2]
    · simp [h]

/-! ### Semantics of re-anchoring -/

theorem reanchor_mask_lt (x y : Int) (o : SquareSet) (ho : o.mask < 512) :
    (SquareSet.reanchor x y o).mask < 512 := by
  unfold SquareSet.reanchor
  by_cases hfar : 3 ≤ (o.x - x).natAbs ∨ 3 ≤ (o.y - y).natAbs
  · simp [hfar]
  · simp only [hfar, if_false]
    by_cases hy : y < o.y <;> by_cases hx : x < o.x <;>
      simp only [hy, hx, if_true, if_false] <;>
      first
        | exact iterN_lt _ mvUp_lt _ _ (iterN_lt _ mvLeft_lt _ _ ho)
        | exact iterN_lt _ mvUp_lt _ _ (iterN_lt _ mvRight_lt _ _ ho)
        | exact iterN_lt _ mvDown_lt _ _ (iterN_lt _ mvLeft_lt _ _ ho)
        | exact iterN_lt _ mvDown_lt _ _ (iterN_lt _ mvRight_lt _ _ ho)

theorem reanchor_containsSq (x y : Int) (o : SquareSet) (ho : o.mask < 512) (px py : Int) :
    (SquareSet.reanchor x y o).containsSq px py
      = (o.containsSq px py && (decide (x ≤ px) && decide (px < x + 3)
          && decide (y ≤ py) && decide (py < y + 3))) := by
  by_cases hfar : 3 ≤ (o.x - x).natAbs ∨ 3 ≤ (o.y - y).natAbs
  · have hL : (SquareSet.reanchor x y o).containsSq px py = false := by
      unfold SquareSet.reanchor
      simp only [hfar, if_true]
      show maskTest 0 _ _ = false
      exact maskTest_zero _ _
    rw [hL]
    cases hB : o.containsSq px py with
    | false => simp
    | true =>
      have hb := maskTest_bounds (show maskTest o.mask (px - o.x) (py - o.y) = true from hB)
      have : ¬ (x ≤ px ∧ px < x + 3 ∧ y ≤ py ∧ py < y + 3) := by omega
      simp only [Bool.true_and]
      symm
      simp only [Bool.and_eq_false_iff]
      by_contra hcon
      push_neg at hcon
      simp only [Bool.not_eq_false, Bool.and_eq_true, decide_eq_true_eq] at hcon
      exact this ⟨hcon.1.1.1, hcon.1.1.2, hcon.1.2, hcon.2⟩
  · push_neg at hfar
    obtain ⟨hfx, hfy⟩ := hfar
    -- the mask after the horizontal moves
    set mx := if x < o.x then iterN mvLeft (o.x - x).toNat o.mask
              else iterN mvRight (x - o.x).toNat o.mask with hmx
    have hmxlt : mx < 512 := by
      rw [hmx]
      by_cases hx : x < o.x <;> simp only [hx, if_true, if_false]
      · exact iterN_lt _ mvLeft_lt _ _ ho
      · exact iterN_lt _ mvRight_lt _ _ ho
    have hMX : ∀ q : Int, maskTest mx (px - x) q
        = (maskTest o.mask (px - o.x) q && (decide (x ≤ px) && decide (px < x + 3))) := by
      intro q
      rw [hmx]
      by_cases hx : x < o.x
      · simp only [hx, if_true]
        rw [maskTest_iterLeft _ _ ho]
        have hk : ((o.x - x).toNat : Int) = o.x - x := Int.toNat_of_nonneg (by omega)
        have harg : px - x - ((o.x - x).toNat : Int) = px - o.x := by rw [hk]; ring
        rw [harg]
        cases hB : maskTest o.mask (px - o.x) q with
        | false => simp
        | true =>
          have hb := maskTest_bounds hB
          have h1 : x ≤ px := by omega
          have h2 : px - x < 3 ↔ px < x + 3 := by omega
          simp [h1, h2]
      · simp only [hx, if_false]
        rw [maskTest_iterRight _ _ ho]
        have hk : ((x - o.x).toNat : Int) = x - o.x := Int.toNat_of_nonneg (by omega)
        have harg : px - x + ((x - o.x).toNat : Int) = px - o.x := by rw [hk]; ring
        rw [harg]
        cases hB : maskTest o.mask (px - o.x) q with
        | false => simp
        | true =>
          have hb := maskTest_bounds hB
          have h1 : px < x + 3 := by omega
          have h2 : 0 ≤ px - x ↔ x ≤ px := by omega
          simp [h1, h2]
    have hL : (SquareSet.reanchor x y o).containsSq px py
        = maskTest (if y < o.y then iterN mvUp (o.y - y).toNat mx
            else iterN mvDown (y - o.y).toNat mx) (px - x) (py - y) := by
      unfold SquareSet.reanchor
      have hfar2 : ¬ (3 ≤ (o.x - x).natAbs ∨ 3 ≤ (o.y - y).natAbs) := by omega
      simp only [hfar2, if_false, SquareSet.containsSq, hmx]
    rw [hL]
    by_cases hy : y < o.y
    · simp only [hy, if_true]
      rw [maskTest_iterUp _ _ hmxlt]
      have hk : ((o.y - y).toNat : Int) = o.y - y := Int.toNat_of_nonneg (by omega)
      have harg : py - y - ((o.y - y).toNat : Int) = py - o.y := by rw [hk]; ring
      rw [harg, hMX (py - o.y)]
      show (maskTest o.mask (px - o.x) (py - o.y) && _ && _) = (o.containsSq px py && _)
      cases hB : maskTest o.mask (px - o.x) (py - o.y) with
      | false =>
        have hB2 : o.containsSq px py = false := hB
        rw [hB2]
        simp
      | true =>
        have hB2 : o.containsSq px py = true := hB
        rw [hB2]
        have hb := maskTest_bounds hB
        have h1 : y ≤ py := by omega
        have h2 : py - y < 3 ↔ py < y + 3 := by omega
        simp [h1, h2]
    · simp only [hy, if_false]
      rw [maskTest_iterDown _ _ hmxlt]
      have hk : ((y - o.y).toNat : Int) = y - o.y := Int.toNat_of_nonneg (by omega)
      have harg : py - y + ((y - o.y).toNat : Int) = py - o.y := by rw [hk]; ring
      rw [harg, hMX (py - o.y)]
      show (maskTest o.mask (px - o.x) (py - o.y) && _ && _) = (o.containsSq px py && _)
      cases hB : maskTest o.mask (px - o.x) (py - o.y) with
      | false =>
        have hB2 : o.containsSq px py = false := hB
        rw [hB2]
        simp
      | true =>
        have hB2 : o.containsSq px py = true := hB
        rw [hB2]
        have hb := maskTest_bounds hB
        have h1 : py < y + 3 := by omega
        have h2 : 0 ≤ py - y ↔ y ≤ py := by omega
        simp [h1, h2]

/-! ### Semantics of intersection and difference -/

theorem maskTest_and (m1 m2 : Nat) (dx dy : Int) :
    maskTest (m1 &&& m2) dx dy = (maskTest m1 dx dy && maskTest m2 dx dy) := by
  simp only [maskTest, Nat.testBit_and]
  cases decide (0 ≤ dx) <;> cases decide (dx < 3) <;> cases decide (0 ≤ dy) <;>
    cases decide (dy < 3) <;> simp

theorem maskCompl_testBit (t : Nat) (ht : t < 512) (i : Nat) (hi : i < 9) :
    (maskCompl t).testBit i = !(t.testBit i) := by
  show (t ^^^ 511).testBit i = _
  rw [Nat.testBit_xor]
  have h511 : (511 : Nat) = 2 ^ 9 - 1 := by norm_num
  rw [h511, Nat.testBit_two_pow_sub_one]
  simp [hi, Bool.xor_comm]

theorem maskTest_complAnd (a t : Nat) (ht : t < 512) (dx dy : Int) :
    maskTest (a &&& maskCompl t) dx dy = (maskTest a dx dy && !(maskTest t dx dy)) := by
  by_cases hx0 : 0 ≤ dx
  case neg => simp [maskTest, hx0]
  by_cases hx3 : dx < 3
  case neg => simp [maskTest, hx3]
  by_cases hy0 : 0 ≤ dy
  case neg => simp [maskTest, hy0]
  by_cases hy3 : dy < 3
  case neg => simp [maskTest, hy3]
  have hidx : dy.toNat * 3 + dx.toNat < 9 := by omega
  simp only [maskTest, Nat.testBit_and, maskCompl_testBit t ht _ hidx]
  cases h1 : a.testBit (dy.toNat * 3 + dx.toNat) <;>
    cases h2 : t.testBit (dy.toNat * 3 + dx.toNat) <;>
    simp [h1, h2, hx0, hx3, hy0, hy3]

theorem reanchor_x (x y : Int) (o : SquareSet) : (SquareSet.reanchor x y o).x = x := by
  unfold SquareSet.reanchor
  split <;> rfl

theorem reanchor_y (x y : Int) (o : SquareSet) : (SquareSet.reanchor x y o).y = y := by
  unfold SquareSet.reanchor
  split <;> rfl

theorem inter_containsSq (a b : SquareSet) (hb : b.mask < 512) (px py : Int) :
    (a.inter b).containsSq px py = (a.containsSq px py && b.containsSq px py) := by
  show maskTest (a.mask &&& (SquareSet.reanchor a.x a.y b).mask) (px - a.x) (py - a.y) = _
  rw [maskTest_and]
  have hre : maskTest (SquareSet.reanchor a.x a.y b).mask (px - a.x) (py - a.y)
      = (SquareSet.reanchor a.x a.y b).containsSq px py := by
    simp [SquareSet.containsSq, reanchor_x, reanchor_y]
  rw [hre, reanchor_containsSq a.x a.y b hb]
  cases hA : a.containsSq px py with
  | false =>
    have hA2 : maskTest a.mask (px - a.x) (py - a.y) = false := hA
    simp [hA2]
  | true =>
    have hab := maskTest_bounds (show maskTest a.mask (px - a.x) (py - a.y) = true from hA)
    have h1 : a.x ≤ px := by omega
    have h2 : px < a.x + 3 := by omega
    have h3 : a.y ≤ py := by omega
    have h4 : py < a.y + 3 := by omega
    have hA2 : maskTest a.mask (px - a.x) (py - a.y) = true := hA
    simp [hA2, h1, h2, h3, h4]

theorem sdiff_containsSq (a b : SquareSet) (hb : b.mask < 512) (px py : Int) :
    (a.sdiff b).containsSq px py = (a.containsSq px py && !(b.containsSq px py)) := by
  show maskTest (a.mask &&& maskCompl (SquareSet.reanchor a.x a.y b).mask)
      (px - a.x) (py - a.y) = _
  rw [maskTest_complAnd _ _ (reanchor_mask_lt a.x a.y b hb)]
  have hre : maskTest (SquareSet.reanchor a.x a.y b).mask (px - a.x) (py - a.y)
      = (SquareSet.reanchor a.x a.y b).containsSq px py := by
    simp [SquareSet.containsSq, reanchor_x, reanchor_y]
  rw [hre, reanchor_containsSq a.x a.y b hb]
  cases hA : a.containsSq px py with
  | false =>
    have hA2 : maskTest a.mask (px - a.x) (py - a.y) = false := hA
    simp [hA2]
  | true =>
    have hab := maskTest_bounds (show maskTest a.mask (px - a.x) (py - a.y) = true from hA)
    have h1 : a.x ≤ px := by omega
    have h2 : px < a.x + 3 := by omega
    have h3 : a.y ≤ py := by omega
    have h4 : py < a.y + 3 := by omega
    have hA2 : maskTest a.mask (px - a.x) (py - a.y) = true := hA
    simp [hA2, h1, h2, h3, h4]

theorem inter_mask_lt (a b : SquareSet) (ha : a.mask < 512) :
    (a.inter b).mask < 512 := by
  show a.mask &&& _ < 512
  calc a.mask &&& _ ≤ a.mask := Nat.and_le_left
    _ < 512 := ha

theorem sdiff_mask_lt (a b : SquareSet) (ha : a.mask < 512) :
    (a.sdiff b).mask < 512 := by
  show a.mask &&& _ < 512
  calc a.mask &&& _ ≤ a.mask := Nat.and_le_left
    _ < 512 := ha

theorem containsSq_ne_zero {s : SquareSet} {px py : Int}
    (h : s.containsSq px py = true) : s.mask ≠ 0 := by
  intro h0
  have : maskTest s.mask (px - s.x) (py - s.y) = true := h
  rw [h0, maskTest_zero] at this
  exact Bool.false_ne_true this

theorem mask_ne_zero_iff (s : SquareSet) (hs : s.mask < 512) :
    s.mask ≠ 0 ↔ ∃ px py, s.containsSq px py = true := by
  constructor
  · intro h
    obtain ⟨i, hi⟩ := Nat.ne_zero_implies_bit_true h
    have hi9 : i < 9 := by
      by_contra hc
      rw [testBit_ge9 s.mask hs i (by omega)] at hi
      exact Bool.false_ne_true hi
    refine ⟨s.x + (i % 3 : Nat), s.y + (i / 3 : Nat), ?_⟩
    show maskTest s.mask _ _ = true
    have hx : s.x + (i % 3 : Nat) - s.x = ((i % 3 : Nat) : Int) := by ring
    have hy : s.y + (i / 3 : Nat) - s.y = ((i / 3 : Nat) : Int) := by ring
    rw [hx, hy]
    simp only [maskTest]
    have c1 : (0 : Int) ≤ (i % 3 : Nat) := by positivity
    have c2 : ((i % 3 : Nat) : Int) < 3 := by
      have : i % 3 < 3 := Nat.mod_lt _ (by norm_num)
      omega
    have c3 : (0 : Int) ≤ (i / 3 : Nat) := by positivity
    have c4 : ((i / 3 : Nat) : Int) < 3 := by
      have : i / 3 < 3 := by omega
      omega
    have hidx : (((i / 3 : Nat) : Int)).toNat * 3 + (((i % 3 : Nat) : Int)).toNat = i := by
      simp only [Int.toNat_ofNat]
      omega
    rw [hidx]
    simp only [Bool.and_eq_true, decide_eq_true_eq]
    refine ⟨⟨⟨⟨?_, ?_⟩, ?_⟩, ?_⟩, hi⟩ <;> omega
  · rintro ⟨px, py, h⟩
    exact containsSq_ne_zero h

/-! ### The square list of a set -/

theorem filterMap_if_eq_map_filter {α β : Type} (g : α → β) (p : α → Bool) (l : List α) :
    l.filterMap (fun a => if p a then some (g a) else none) = (l.filter p).map g := by
  induction l with
  | nil => rfl
  | cons a l ih =>
    by_cases h : p a
    · simp [List.filterMap_cons, List.filter_cons, h, ih]
    · simp [List.filterMap_cons, List.filter_cons, h, ih]

theorem squaresList_eq_map (s : SquareSet) :
    squaresList s = ((flagOffsets.filter (fun f => s.mask.testBit f.1)).map
      (fun f => (s.x + f.2.1, s.y + f.2.2))) := by
  unfold squaresList
  exact filterMap_if_eq_map_filter _ _ _

theorem squaresList_mem (s : SquareSet) (px py : Int) :
    (px, py) ∈ squaresList s ↔ s.containsSq px py = true := by
  rw [squaresList_eq_map]
  simp only [List.mem_map, List.mem_filter]
  constructor
  · rintro ⟨f, ⟨hf, hbit⟩, heq⟩
    show maskTest s.mask (px - s.x) (py - s.y) = true
    fin_cases hf <;>
      (obtain ⟨h1, h2⟩ := Prod.ext_iff.mp heq
       simp only [] at h1 h2 hbit
       rw [← h1, ← h2]
       simp only [maskTest]
       norm_num
       simpa using hbit)
  · intro h
    have hb := maskTest_bounds (show maskTest s.mask (px - s.x) (py - s.y) = true from h)
    have hm : maskTest s.mask (px - s.x) (py - s.y) = true := h
    simp only [maskTest, Bool.and_eq_true, decide_eq_true_eq] at hm
    have hbit := hm.2
    set dx := px - s.x with hdx
    set dy := py - s.y with hdy
    have hxv : px = s.x + dx := by rw [hdx]; ring
    have hyv : py = s.y + dy := by rw [hdy]; ring
    refine ⟨(dy.toNat * 3 + dx.toNat, (dx, dy)), ⟨?_, ?_⟩, ?_⟩
    · show _ ∈ flagOffsets
      have hdxc : dx = 0 ∨ dx = 1 ∨ dx = 2 := by omega
      have hdyc : dy = 0 ∨ dy = 1 ∨ dy = 2 := by omega
      rcases hdxc with h1 | h1 | h1 <;> rcases hdyc with h2 | h2 | h2 <;>
        (rw [h1, h2]; simp [flagOffsets])
    · simpa using hbit
    · simp only []
      rw [hxv, hyv]

theorem flagOffsets_nodup : flagOffsets.Nodup := by decide

theorem squaresList_nodup (s : SquareSet) : (squaresList s).Nodup := by
  rw [squaresList_eq_map]
  apply List.Nodup.map_on
  · intro f1 hf1 f2 hf2 heq
    have h1 := (List.mem_filter.mp hf1).1
    have h2 := (List.mem_filter.mp hf2).1
    obtain ⟨ha, hb⟩ := Prod.ext_iff.mp heq
    have hoff : f1.2.1 = f2.2.1 ∧ f1.2.2 = f2.2.2 := by omega
    revert hoff
    fin_cases h1 <;> fin_cases h2 <;> simp
  · exact List.Nodup.filter _ flagOffsets_nodup

set_option maxRecDepth 4000 in
set_option maxHeartbeats 2000000 in
theorem maskCount_eq_length : ∀ m < 512,
    maskCount m = (flagOffsets.filter (fun f => m.testBit f.1)).length := by decide

theorem squaresList_length (s : SquareSet) (hs : s.mask < 512) :
    (squaresList s).length = maskCount s.mask := by
  rw [squaresList_eq_map, List.length_map, maskCount_eq_length s.mask hs]

/-! ### Semantics of normalization -/

set_option maxRecDepth 4000 in
theorem mvRight_ne_zero : ∀ m < 512, m ≠ 0 → m &&& LEFT_COLUMN = 0 → mvRight m ≠ 0 := by decide

set_option maxRecDepth 4000 in
theorem mvDown_ne_zero : ∀ m < 512, m ≠ 0 → m &&& TOP_ROW = 0 → mvDown m ≠ 0 := by decide

set_option maxRecDepth 4000 in
theorem mvDown_preserves_left : ∀ m < 512, m &&& TOP_ROW = 0 → m &&& LEFT_COLUMN ≠ 0 →
    mvDown m &&& LEFT_COLUMN ≠ 0 := by decide

set_option maxRecDepth 4000 in
theorem left_col_bits : ∀ m < 512, m &&& LEFT_COLUMN = 0 →
    m.testBit 0 = false ∧ m.testBit 3 = false ∧ m.testBit 6 = false := by decide

set_option maxRecDepth 4000 in
theorem top_row_bits : ∀ m < 512, m &&& TOP_ROW = 0 →
    m.testBit 0 = false ∧ m.testBit 1 = false ∧ m.testBit 2 = false := by decide

theorem maskTest_zero_col (m : Nat) (hm : m < 512) (hL : m &&& LEFT_COLUMN = 0) (q : Int) :
    maskTest m 0 q = false := by
  obtain ⟨b0, b3, b6⟩ := left_col_bits m hm hL
  by_cases hy0 : 0 ≤ q
  case neg => simp [maskTest, hy0]
  by_cases hy3 : q < 3
  case neg => simp [maskTest, hy3]
  interval_cases q <;> simp [maskTest, b0, b3, b6]

theorem maskTest_zero_row (m : Nat) (hm : m < 512) (hT : m &&& TOP_ROW = 0) (p : Int) :
    maskTest m p 0 = false := by
  obtain ⟨b0, b1, b2⟩ := top_row_bits m hm hT
  by_cases hx0 : 0 ≤ p
  case neg => simp [maskTest, hx0]
  by_cases hx3 : p < 3
  case neg => simp [maskTest, hx3]
  interval_cases p <;> simp [maskTest, b0, b1, b2]

theorem normShiftX_specAux (fuel : Nat) : ∀ (x : Int) (m : Nat), m < 512 → m ≠ 0 →
    ∀ k ≤ fuel, exitsInX k m →
    (normShiftX fuel x m).2 < 512 ∧ (normShiftX fuel x m).2 ≠ 0 ∧
    ((normShiftX fuel x m).2 &&& LEFT_COLUMN ≠ 0) ∧
    (∀ px q : Int, maskTest (normShiftX fuel x m).2 (px - (normShiftX fuel x m).1) q
      = maskTest m (px - x) q) := by
  induction fuel with
  | zero =>
    intro x m hm h0 k hk hex
    interval_cases k
    rcases hex with h | h
    · exact ⟨hm, h0, h, fun px q => rfl⟩
    · exact absurd h h0
  | succ fuel ih =>
    intro x m hm h0 k hk hex
    have hunf : normShiftX (fuel + 1) x m
        = if m &&& LEFT_COLUMN ≠ 0 ∨ m = 0 then (x, m)
          else normShiftX fuel (x + 1) (mvRight m) := rfl
    rw [hunf]
    by_cases hcond : m &&& LEFT_COLUMN ≠ 0 ∨ m = 0
    · rw [if_pos hcond]
      rcases hcond with h | h
      · exact ⟨hm, h0, h, fun px q => rfl⟩
      · exact absurd h h0
    · rw [if_neg hcond]
      push_neg at hcond
      obtain ⟨hL, _⟩ := hcond
      have hex2 : ∃ k2 ≤ fuel, exitsInX k2 (mvRight m) := by
        cases k with
        | zero =>
          rcases hex with h | h
          · exact absurd h (by simpa using hL)
          · exact absurd h h0
        | succ k =>
          rcases hex with h | h | h
          · exact absurd h (by simpa using hL)
          · exact absurd h h0
          · exact ⟨k, by omega, h⟩
      obtain ⟨k2, hk2, hexk2⟩ := hex2
      obtain ⟨ih1, ih2, ih3, ih4⟩ :=
        ih (x + 1) (mvRight m) (mvRight_lt m) (mvRight_ne_zero m hm h0 hL) k2 hk2 hexk2
      refine ⟨ih1, ih2, ih3, ?_⟩
      intro px q
      rw [ih4 px q, maskTest_mvRight m hm (px - (x + 1)) q]
      have harg : px - (x + 1) + 1 = px - x := by ring
      rw [harg]
      cases hB : maskTest m (px - x) q with
      | false => simp
      | true =>
        have hb := maskTest_bounds hB
        have hdx : px - x ≠ 0 := by
          intro hc
          have hz : maskTest m 0 q = true := by rw [← hc]; exact hB
          rw [maskTest_zero_col m hm hL q] at hz
          exact Bool.false_ne_true hz
        have hge : (0 : Int) ≤ px - (x + 1) := by omega
        simp [hge]

theorem normShiftX_spec (x : Int) (m : Nat) (hm : m < 512) (h0 : m ≠ 0) :
    (normShiftX 9 x m).2 < 512 ∧ (normShiftX 9 x m).2 ≠ 0 ∧
    ((normShiftX 9 x m).2 &&& LEFT_COLUMN ≠ 0) ∧
    (∀ px q : Int, maskTest (normShiftX 9 x m).2 (px - (normShiftX 9 x m).1) q
      = maskTest m (px - x) q) :=
  normShiftX_specAux 9 x m hm h0 2 (by norm_num) (exitsInX_all m hm)

theorem normShiftY_specAux (fuel : Nat) : ∀ (y : Int) (m : Nat), m < 512 → m ≠ 0 →
    ∀ k ≤ fuel, exitsInY k m →
    (normShiftY fuel y m).2 < 512 ∧ (normShiftY fuel y m).2 ≠ 0 ∧
    ((normShiftY fuel y m).2 &&& TOP_ROW ≠ 0) ∧
    ((normShiftY fuel y m).2 &&& LEFT_COLUMN ≠ 0 ∨ m &&& LEFT_COLUMN = 0) ∧
    (∀ p qy : Int, maskTest (normShiftY fuel y m).2 p (qy - (normShiftY fuel y m).1)
      = maskTest m p (qy - y)) := by
  induction fuel with
  | zero =>
    intro y m hm h0 k hk hex
    interval_cases k
    rcases hex with h | h
    · refine ⟨hm, h0, h, ?_, fun p qy => rfl⟩
      by_cases hc : m &&& LEFT_COLUMN = 0
      · exact Or.inr hc
      · exact Or.inl hc
    · exact absurd h h0
  | succ fuel ih =>
    intro y m hm h0 k hk hex
    have hunf : normShiftY (fuel + 1) y m
        = if m &&& TOP_ROW ≠ 0 ∨ m = 0 then (y, m)
          else normShiftY fuel (y + 1) (mvDown m) := rfl
    rw [hunf]
    by_cases hcond : m &&& TOP_ROW ≠ 0 ∨ m = 0
    · rw [if_pos hcond]
      rcases hcond with h | h
      · refine ⟨hm, h0, h, ?_, fun p qy => rfl⟩
        by_cases hc : m &&& LEFT_COLUMN = 0
        · exact Or.inr hc
        · exact Or.inl hc
      · exact absurd h h0
    · rw [if_neg hcond]
      push_neg at hcond
      obtain ⟨hT, _⟩ := hcond
      have hex2 : ∃ k2 ≤ fuel, exitsInY k2 (mvDown m) := by
        cases k with
        | zero =>
          rcases hex with h | h
          · exact absurd h (by simpa using hT)
          · exact absurd h h0
        | succ k =>
          rcases hex with h | h | h
          · exact absurd h (by simpa using hT)
          · exact absurd h h0
          · exact ⟨k, by omega, h⟩
      obtain ⟨k2, hk2, hexk2⟩ := hex2
      obtain ⟨ih1, ih2, ih3, ih4, ih5⟩ :=
        ih (y + 1) (mvDown m) (mvDown_lt m) (mvDown_ne_zero m hm h0 hT) k2 hk2 hexk2
      refine ⟨ih1, ih2, ih3, ?_, ?_⟩
      · by_cases hc : m &&& LEFT_COLUMN = 0
        · exact Or.inr hc
        · rcases ih4 with h | h
          · exact Or.inl h
          · exact Or.inl (absurd (mvDown_preserves_left m hm hT hc) (by simp [h]))
      · intro p qy
        rw [ih5 p qy, maskTest_mvDown m hm p (qy - (y + 1))]
        have harg : qy - (y + 1) + 1 = qy - y := by ring
        rw [harg]
        cases hB : maskTest m p (qy - y) with
        | false => simp
        | true =>
          have hb := maskTest_bounds hB
          have hdy : qy - y ≠ 0 := by
            intro hc
            have hz : maskTest m p 0 = true := by rw [← hc]; exact hB
            rw [maskTest_zero_row m hm hT p] at hz
            exact Bool.false_ne_true hz
          have hge : (0 : Int) ≤ qy - (y + 1) := by omega
          simp [hge]

theorem normShiftY_spec (y : Int) (m : Nat) (hm : m < 512) (h0 : m ≠ 0) :
    (normShiftY 9 y m).2 < 512 ∧ (normShiftY 9 y m).2 ≠ 0 ∧
    ((normShiftY 9 y m).2 &&& TOP_ROW ≠ 0) ∧
    ((normShiftY 9 y m).2 &&& LEFT_COLUMN ≠ 0 ∨ m &&& LEFT_COLUMN = 0) ∧
    (∀ p qy : Int, maskTest (normShiftY 9 y m).2 p (qy - (normShiftY 9 y m).1)
      = maskTest m p (qy - y)) :=
  normShiftY_specAux 9 y m hm h0 2 (by norm_num) (exitsInY_all m hm)

/-- Full characterization of `SquareSet::normalize` on non-empty 9-bit masks:
it denotes the same squares, and the normalized mask has a square both in the
left column and in the top row. -/
theorem normalize_spec (s : SquareSet) (hm : s.mask < 512) (h0 : s.mask ≠ 0) :
    s.normalize.mask < 512 ∧ s.normalize.mask ≠ 0 ∧
    (s.normalize.mask &&& LEFT_COLUMN ≠ 0) ∧ (s.normalize.mask &&& TOP_ROW ≠ 0) ∧
    (∀ px py : Int, s.normalize.containsSq px py = s.containsSq px py) := by
  unfold SquareSet.normalize
  rw [if_neg h0]
  obtain ⟨hx1, hx2, hx3, hx4⟩ := normShiftX_spec s.x s.mask hm h0
  obtain ⟨hy1, hy2, hy3, hy4, hy5⟩ := normShiftY_spec s.y (normShiftX 9 s.x s.mask).2 hx1 hx2
  refine ⟨hy1, hy2, ?_, hy3, ?_⟩
  · rcases hy4 with h | h
    · exact h
    · exact absurd h hx3
  · intro px py
    show maskTest (normShiftY 9 s.y (normShiftX 9 s.x s.mask).2).2 _ _ = _
    rw [hy5 (px - (normShiftX 9 s.x s.mask).1) py, hx4 px (py - s.y)]
    rfl

/-- A set whose mask already has a left-column and a top-row bit is fixed by
`normalize`. -/
theorem normalize_fixed (s : SquareSet) (hL : s.mask &&& LEFT_COLUMN ≠ 0)
    (hT : s.mask &&& TOP_ROW ≠ 0) : s.normalize = s := by
  have h0 : s.mask ≠ 0 := by
    intro hc
    rw [hc] at hL
    exact hL (by decide)
  obtain ⟨sx, sy, sm⟩ := s
  simp only [] at hL hT h0
  have hx : normShiftX 9 sx sm = (sx, sm) := by
    show (if sm &&& LEFT_COLUMN ≠ 0 ∨ sm = 0 then (sx, sm)
        else normShiftX 8 (sx + 1) (mvRight sm)) = (sx, sm)
    rw [if_pos (Or.inl hL)]
  have hy : normShiftY 9 sy sm = (sy, sm) := by
    show (if sm &&& TOP_ROW ≠ 0 ∨ sm = 0 then (sy, sm)
        else normShiftY 8 (sy + 1) (mvDown sm)) = (sy, sm)
    rw [if_pos (Or.inl hT)]
  unfold SquareSet.normalize
  rw [if_neg h0]
  simp only [hx, hy]

theorem normalize_zero (s : SquareSet) (h : s.mask = 0) : s.normalize = s := by
  unfold SquareSet.normalize
  rw [if_pos h]

theorem normalize_idem (s : SquareSet) (hm : s.mask < 512) :
    s.normalize.normalize = s.normalize := by
  by_cases h0 : s.mask = 0
  · rw [normalize_zero s h0, normalize_zero s h0]
  · obtain ⟨h1, h2, h3, h4, h5⟩ := normalize_spec s hm h0
    exact normalize_fixed _ h3 h4

theorem normalize_mask_lt (s : SquareSet) (hm : s.mask < 512) :
    s.normalize.mask < 512 := by
  by_cases h0 : s.mask = 0
  · rw [normalize_zero s h0]; exact hm
  · exact (normalize_spec s hm h0).1

/-! ## Grids and game data (grid.h, knowledge.h, gamedata.h) -/

/-- PlayerKnowledge value `Unknown`.  The C++ enum is used numerically by the
solver (comparisons, casts, count arithmetic), so cells are modelled as `Int`
with the enum values `Unknown = -2`, `MarkedAsMine = -1`, revealed counts
`0..8`. -/
def Unknown : Int := -2

/-- PlayerKnowledge value `MarkedAsMine`. -/
def MarkedAsMine : Int := -1

/-- Model of `Grid<T>`: dimensions plus a cell function.  The C++ grid is a
dense row-major vector; every read the embedded code performs is guarded by
`contains` (or by invariants keeping it in bounds), so a total function over
coordinates is a faithful view.  Only explicit `assert` statements of the
source are modelled (as `Option` guards). -/
structure Grid (α : Type) where
  w : Nat
  h : Nat
  cells : Int → Int → α

/-- Embedding of `Grid::contains(int, int)`. -/
def Grid.inb {α : Type} (g : Grid α) (x y : Int) : Bool :=
  decide (0 ≤ x) && decide (x < (g.w : Int)) && decide (0 ≤ y) && decide (y < (g.h : Int))

/-- Embedding of `Grid::at` / `operator[]` for in-bounds access. -/
def Grid.get {α : Type} (g : Grid α) (x y : Int) : α := g.cells x y

/-- Embedding of `Grid::set`. -/
def Grid.setc {α : Type} (g : Grid α) (x y : Int) (v : α) : Grid α :=
  ⟨g.w, g.h, fun x2 y2 => if x2 = x ∧ y2 = y then v else g.cells x2 y2⟩

/-- The grid coordinates in row-major index order (`idx2pt` of indexes
`0 .. w*h-1`). -/
def gridPoints (w h : Nat) : List (Int × Int) :=
  (List.range (w * h)).map (fun i => (((i % w : Nat) : Int), ((i / w : Nat) : Int)))

/-- Count of cells satisfying a test, in row-major order
(`std::count` over the cell vector). -/
def Grid.countP {α : Type} (g : Grid α) (p : α → Bool) : Nat :=
  ((gridPoints g.w g.h).filter (fun c => p (g.get c.1 c.2))).length

/-- A uniform grid (the `Grid(w, h, value)` constructor). -/
def Grid.fill {α : Type} (w h : Nat) (v : α) : Grid α := ⟨w, h, fun _ _ => v⟩

/-- The 8 neighbor offsets in the iteration order of `Game::mineLookup`. -/
def neighborOffsets : List (Int × Int) :=
  [(-1, -1), (-1, 0), (-1, 1), (0, -1), (0, 1), (1, -1), (1, 0), (1, 1)]

/-- Number of mines among the in-bounds 8-neighbors of a cell. -/
def neighborMineCount (mines : Grid Bool) (x y : Int) : Nat :=
  (neighborOffsets.filter (fun d =>
    mines.inb (x + d.1) (y + d.2) && mines.get (x + d.1) (y + d.2))).length

/-- Embedding of `Game::mineLookup` (game.cpp): `-1` on a mine, otherwise the
neighbor mine count. -/
def mineLookup (mines : Grid Bool) (x y : Int) : Int :=
  if mines.get x y then -1 else (neighborMineCount mines x y : Int)

/-- Embedding of `GameParams` (gamedata.h).  `width`/`height`/`minecount` are
used as sizes, hence `Nat`; the start square keeps `int` coordinates. -/
structure GameParams where
  width : Nat
  height : Nat
  minecount : Nat
  unique : Bool
  sx : Int
  sy : Int
  seed : Nat

/-- Embedding of `GameData` (the fields the solver pipeline touches;
`dead` / `won` / the stored seed belong to the out-of-scope game loop). -/
structure GameData where
  params : GameParams
  mines : Grid Bool
  grid : Grid Int

/-! ## Random engine (model)

`RandomEngine` is `std::default_random_engine`, whose algorithm is
implementation-defined; it is modelled as the minstd linear congruential
engine.  `std::shuffle` and `std::uniform_int_distribution` are likewise
implementation-defined and are modelled as explicit draws from the engine. -/

/-- One step of the engine; the returned value is the new state. -/
def rngNext (s : Nat) : Nat := (16807 * s) % 2147483647

/-- Model of `engine.seed(s)`. -/
def seedEngine (s : Nat) : Nat :=
  if s % 2147483647 = 0 then 1 else s % 2147483647

/-- Model of a `uniform_int_distribution(0, n-1)` draw. -/
def uniformNat (st n : Nat) : Nat × Nat :=
  let st2 := rngNext st
  (st2 % n, st2)

/-- Selection shuffle driven by the engine (model of `std::shuffle`). -/
def shuffleGo {α : Type} : Nat → List α → Nat → List α × Nat
  | 0, _, st => ([], st)
  | fuel + 1, l, st =>
    match l with
    | [] => ([], st)
    | _ :: _ =>
      let p := uniformNat st l.length
      match l.get? p.1 with
      | some x =>
        let r := shuffleGo fuel (l.eraseIdx p.1) p.2
        (x :: r.1, r.2)
      | none => (l, p.2)

/-- Shuffle a whole list. -/
def shuffleList {α : Type} (l : List α) (st : Nat) : List α × Nat :=
  shuffleGo l.length l st

theorem get_cons_eraseIdx_perm {α : Type} : ∀ (l : List α) (i : Nat) (h : i < l.length),
    (l.get ⟨i, h⟩ :: l.eraseIdx i).Perm l := by
  intro l
  induction l with
  | nil => intro i h; simp at h
  | cons a rest ih =>
    intro i h
    cases i with
    | zero =>
      show (a :: rest).Perm (a :: rest)
      exact List.Perm.refl _
    | succ i =>
      have h2 : i < rest.length := by simpa using h
      show (rest.get ⟨i, h2⟩ :: a :: rest.eraseIdx i).Perm (a :: rest)
      exact List.Perm.trans (List.Perm.swap a _ _) (List.Perm.cons a (ih i h2))

theorem shuffleGo_perm {α : Type} (fuel : Nat) : ∀ (l : List α) (st : Nat),
    l.length ≤ fuel → (shuffleGo fuel l st).1.Perm l := by
  induction fuel with
  | zero =>
    intro l st hl
    have hnil : l = [] := List.length_eq_zero.mp (by omega)
    subst hnil
    exact List.Perm.refl _
  | succ fuel ih =>
    intro l st hl
    match l with
    | [] => exact List.Perm.refl _
    | a :: rest =>
      have hlen : (uniformNat st (a :: rest).length).1 < (a :: rest).length := by
        show rngNext st % (a :: rest).length < (a :: rest).length
        exact Nat.mod_lt _ (by simp)
      show (shuffleGo (fuel + 1) (a :: rest) st).1.Perm _
      rw [shuffleGo]
      simp only [List.get?_eq_get hlen]
      have herase : ((a :: rest).eraseIdx (uniformNat st (a :: rest).length).1).length ≤ fuel := by
        have := List.length_eraseIdx_add_one hlen
        omega
      exact List.Perm.trans
        (List.Perm.cons _ (ih _ _ herase))
        (get_cons_eraseIdx_perm (a :: rest) _ hlen)

theorem shuffleList_perm {α : Type} (l : List α) (st : Nat) :
    (shuffleList l st).1.Perm l :=
  shuffleGo_perm l.length l st (Nat.le_refl _)

/-! ## SetStore (solver.cpp) -/

/-- Model of `SetStoreElement`: the square set (store key, kept normalized),
its mine count, and the todo flag.  The `prev`/`next` links of the intrusive
todo list are represented by the store-level queue below. -/
structure SSElem where
  key : SquareSet
  mines : Int
  todo : Bool
deriving DecidableEq, Repr

/-- Model of `SetStore`: the sorted element map (`std::map` iteration order)
plus the FIFO todo queue, held as a list of keys. -/
structure SetStore where
  elems : List SSElem
  queue : List SquareSet
deriving DecidableEq, Repr

def SetStore.empty : SetStore := ⟨[], []⟩

/-- Ordered insertion, mirroring `std::map::insert` placement. -/
def insertSorted (e : SSElem) : List SSElem → List SSElem
  | [] => [e]
  | e2 :: rest => if ssLt e.key e2.key then e :: e2 :: rest else e2 :: insertSorted e rest

/-- Embedding of `SetStore::add_todo`: no-op when the flag is set, otherwise
append to the todo queue. -/
def SetStore.addTodoKey (ss : SetStore) (k : SquareSet) : SetStore :=
  match ss.elems.find? (fun e => e.key = k) with
  | none => ss
  | some e =>
    if e.todo then ss
    else ⟨ss.elems.map (fun e2 => if e2.key = k then { e2 with todo := true } else e2),
          ss.queue ++ [k]⟩

/-- Embedding of `SetStore::add`: normalize, insert if the key is absent
(`std::map::insert` is a no-op on an existing key), and enqueue on insertion. -/
def SetStore.add (ss : SetStore) (x y : Int) (mask : Nat) (mines : Int) : SetStore :=
  let s := SquareSet.normalize ⟨x, y, mask⟩
  if ss.elems.any (fun e => e.key = s) then ss
  else SetStore.addTodoKey ⟨insertSorted ⟨s, mines, false⟩ ss.elems, ss.queue⟩ s

/-- Embedding of `SetStore::erase` (by key): drops the element and its todo
queue entry. -/
def SetStore.eraseKey (ss : SetStore) (k : SquareSet) : SetStore :=
  ⟨ss.elems.filter (fun e => e.key ≠ k), ss.queue.filter (fun q => q ≠ k)⟩

/-- Embedding of `SetStore::next_todo`: pop the queue head and clear its todo
flag.  The `none`-on-missing-element branch is unreachable (the queue only
holds keys of stored elements). -/
def SetStore.nextTodo (ss : SetStore) : Option (SSElem × SetStore) :=
  match ss.queue with
  | [] => none
  | k :: rest =>
    match ss.elems.find? (fun e => e.key = k) with
    | none => none
    | some e =>
      some ({ e with todo := false },
        ⟨ss.elems.map (fun e2 => if e2.key = k then { e2 with todo := false } else e2), rest⟩)

/-- Embedding of `SetStore::overlap`: scan the 5x5 anchor window
(`xx` outer from `x-2`, `yy` inner from `y-2`), keep the elements whose
intersection with the query set is non-empty. -/
def SetStore.overlap (ss : SetStore) (x y : Int) (mask : Nat) : List SSElem :=
  (List.range 5).flatMap (fun i =>
    (List.range 5).flatMap (fun j =>
      ss.elems.filter (fun e =>
        e.key.x = x - 2 + (i : Int) && e.key.y = y - 2 + (j : Int)
          && (SquareSet.inter e.key ⟨x, y, mask⟩).mask ≠ 0)))

/-- Embedding of `setstore_size`. -/
def SetStore.size (ss : SetStore) : Nat := ss.elems.length

/-! ## Perturbator (perturbator.cpp) -/

/-- Model of struct `Perturbation`; `delta` keeps the numeric enum values
(`ChangedToMine = +1`, `Cleared = -1`). -/
structure Perturbation where
  x : Int
  y : Int
  delta : Int
deriving DecidableEq, Repr

/-- Model of `PerturbSquare` with its numeric classification
(`NearKnownSquare = 1`, `InUnknownRegion = 2`, `KnownSquare = 3`). -/
structure PerturbSquare where
  type : Nat
  x : Int
  y : Int
deriving DecidableEq, Repr

/-- The `(type, y, x)` comparison used to sort the square list. -/
def psLe (a b : PerturbSquare) : Bool :=
  a.type < b.type || (a.type == b.type
    && (a.y < b.y || (a.y == b.y && a.x ≤ b.x)))

/-- The 9 offsets of a 3x3 block scan (`for dy ... for dx ...`), `dy` outer. -/
def blockOffsets : List (Int × Int) :=
  [(-1, -1), (0, -1), (1, -1), (-1, 0), (0, 0), (1, 0), (-1, 1), (0, 1), (1, 1)]

/-- Deterministic model of the `std::sort` call of `build_squarelist`: an
insertion sort under the `(type, y, x)` comparison.  The candidate squares
have pairwise distinct coordinates, so the comparison admits exactly one
sorted arrangement and any correct sort produces this list. -/
def insertPS (a : PerturbSquare) : List PerturbSquare → List PerturbSquare
  | [] => [a]
  | b :: l => if psLe a b then a :: b :: l else b :: insertPS a l

/-- The sort itself. -/
def sortPS (l : List PerturbSquare) : List PerturbSquare := l.foldr insertPS []

/-- Embedding of `build_squarelist` (perturbator.cpp): list the usable squares
outside the input set and the safe starting 3x3, classify them, sort by
`(type, y, x)`, and shuffle within each class. -/
def buildSquarelist (sx sy : Int) (grid : Grid Int) (mines : Grid Bool)
    (setx sety : Int) (mask : Nat) (st : Nat) : List PerturbSquare × Nat :=
  let raw : List PerturbSquare := (gridPoints grid.w grid.h).filterMap (fun c =>
    let x := c.1
    let y := c.2
    if (y - sy).natAbs ≤ 1 ∧ (x - sx).natAbs ≤ 1 then none
    else if (mask = 0 ∧ grid.get x y = Unknown)
        ∨ (setx ≤ x ∧ x < setx + 3 ∧ sety ≤ y ∧ y < sety + 3
            ∧ mask &&& (1 <<< ((y - sety).toNat * 3 + (x - setx).toNat)) ≠ 0) then none
    else if grid.get x y ≠ Unknown then some ⟨3, x, y⟩
    else if blockOffsets.any (fun d =>
        grid.inb (x + d.1) (y + d.2) && grid.get (x + d.1) (y + d.2) ≠ Unknown) then
      some ⟨1, x, y⟩
    else some ⟨2, x, y⟩)
  let sorted := sortPS raw
  let g1 := shuffleList (sorted.filter (fun q => q.type = 1)) st
  let g2 := shuffleList (sorted.filter (fun q => q.type = 2)) g1.2
  let g3 := shuffleList (sorted.filter (fun q => q.type = 3)) g2.2
  (g1.1 ++ g2.1 ++ g3.1, g3.2)

/-- Embedding of `count_full_and_empty`: mines and non-mines inside a square
set; the in-loop bounds assertions are the `Option` guard. -/
def countFullEmpty (s : SquareSet) (mines : Grid Bool) : Option (Nat × Nat) :=
  flagOffsets.foldlM (fun (acc : Nat × Nat) f =>
    if s.mask.testBit f.1 then
      if s.x + f.2.1 < (mines.w : Int) ∧ s.y + f.2.2 < (mines.h : Int) then
        if mines.get (s.x + f.2.1) (s.y + f.2.2) then some (acc.1 + 1, acc.2)
        else some (acc.1, acc.2 + 1)
      else none
    else some acc) (0, 0)

/-- Embedding of `count_full_and_empty_among_unknown_squares`. -/
def countFullEmptyUnknown (grid : Grid Int) (mines : Grid Bool) : Nat × Nat :=
  (gridPoints grid.w grid.h).foldl (fun (acc : Nat × Nat) c =>
    if grid.get c.1 c.2 = Unknown then
      if mines.get c.1 c.2 then (acc.1 + 1, acc.2) else (acc.1, acc.2 + 1)
    else acc) (0, 0)

/-- Embedding of `build_fill_list`: collect the non-mine squares of the input
set (or of all unknown squares when the mask is empty), shuffle, keep `size`
of them.  The size assertions of the source are the guards. -/
def buildFillList (grid : Grid Int) (mines : Grid Bool) (inputset : SquareSet)
    (size : Nat) (st : Nat) : Option (List (Int × Int) × Nat) :=
  if size = 0 then none
  else do
    let base ←
      if inputset.mask ≠ 0 then
        flagOffsets.foldlM (fun (acc : List (Int × Int)) f =>
          if inputset.mask.testBit f.1 then
            if inputset.x + f.2.1 ≤ (grid.w : Int) ∧ inputset.y + f.2.2 ≤ (grid.h : Int) then
              if mines.get (inputset.x + f.2.1) (inputset.y + f.2.2) then some acc
              else some (acc ++ [(inputset.x + f.2.1, inputset.y + f.2.2)])
            else none
          else some acc) []
      else
        some ((gridPoints grid.w grid.h).filter (fun c =>
          grid.get c.1 c.2 = Unknown && !(mines.get c.1 c.2)))
    if base.length ≥ size ∧ base.length > size then
      let r := shuffleList base st
      some (r.1.take size, r.2)
    else none

/-- The per-block-cell grid repair of `apply_changes` (the body of the
`for dy / for dx` loop), at offset `d` from the perturbed square: rewrite the
center cell of a revealed block, add `delta` to a revealed neighbor count. -/
def pertStep (mines : Grid Bool) (p : Perturbation) (gr : Grid Int) (d : Int × Int) : Grid Int :=
  if gr.inb (p.x + d.1) (p.y + d.2) && gr.get (p.x + d.1) (p.y + d.2) ≠ Unknown then
    if d.1 = 0 ∧ d.2 = 0 then
      if p.delta = 1 then gr.setc p.x p.y MarkedAsMine
      else
        let cnt := (blockOffsets.filter (fun d2 =>
          gr.inb (p.x + d2.1) (p.y + d2.2) && mines.get (p.x + d2.1) (p.y + d2.2))).length
        gr.setc p.x p.y (cnt : Int)
    else
      if gr.get (p.x + d.1) (p.y + d.2) ≥ 0 then
        gr.setc (p.x + d.1) (p.y + d.2) (gr.get (p.x + d.1) (p.y + d.2) + p.delta)
      else gr
  else gr

/-- One perturbation step of `apply_changes`: flip the mine bit (guarded by
the consistency assertion) and repair the revealed neighborhood. -/
def applyOne (g : Grid Int × Grid Bool) (p : Perturbation) : Option (Grid Int × Grid Bool) :=
  let grid := g.1
  let mines0 := g.2
  if (decide (p.delta = -1)) = mines0.get p.x p.y then
    let mines := mines0.setc p.x p.y (p.delta = 1)
    let grid2 := blockOffsets.foldl (pertStep mines p) grid
    some (grid2, mines)
  else none

/-- Embedding of `apply_changes` (perturbator.cpp). -/
def applyChanges (grid : Grid Int) (mines : Grid Bool) (ps : List Perturbation) :
    Option (Grid Int × Grid Bool) :=
  ps.foldlM applyOne (grid, mines)

/-- The selection walk of `mineperturb`: collect `to_fill` / `to_empty` from
the candidate list and stop as soon as either reaches its target. -/
def selectSquares (mines : Grid Bool) (nfull nempty : Nat) :
    List PerturbSquare → List PerturbSquare → List PerturbSquare →
    List PerturbSquare × List PerturbSquare
  | [], tofill, toempty => (tofill, toempty)
  | sq :: rest, tofill, toempty =>
    let tf := if mines.get sq.x sq.y then tofill else tofill ++ [sq]
    let te := if mines.get sq.x sq.y then toempty ++ [sq] else toempty
    if tf.length = nfull ∨ te.length = nempty then (tf, te)
    else selectSquares mines nfull nempty rest tf te

/-- Embedding of `mineperturb` (perturbator.cpp).  All `assert` statements
become `Option` guards; the result carries the perturbation list, the updated
game data and the advanced engine state. -/
def mineperturb (gd : GameData) (setx sety : Int) (mask : Nat) (st : Nat)
    (allowBig : Bool) : Option (List Perturbation × GameData × Nat) :=
  if mask = 0 ∧ ¬ allowBig then some ([], gd, st)
  else do
    let counts ← if mask ≠ 0 then countFullEmpty ⟨setx, sety, mask⟩ gd.mines
                 else some (countFullEmptyUnknown gd.grid gd.mines)
    let nfull := counts.1
    let nempty := counts.2
    let bs := buildSquarelist gd.params.sx gd.params.sy gd.grid gd.mines setx sety mask st
    let sqlist := bs.1
    let st1 := bs.2
    let sel := selectSquares gd.mines nfull nempty sqlist [] []
    let tofill := sel.1
    let toempty := sel.2
    let fl ← if tofill.length ≠ nfull ∧ toempty.length ≠ nempty then
               (buildFillList gd.grid gd.mines ⟨setx, sety, mask⟩ toempty.length st1).map
                 (fun r => (r.1, r.2))
             else some ([], st1)
    let filllist := fl.1
    let st2 := fl.2
    let fullDir : Bool := tofill.length = nfull
    let todo := if fullDir then tofill else toempty
    let change : Int := if fullDir then 1 else -1
    let ret1 : List Perturbation := todo.map (fun sq => ⟨sq.x, sq.y, change⟩)
    let change2 := -change
    let ret2 ←
      if filllist ≠ [] then
        if change2 = 1 then
          some (filllist.map (fun c => (⟨c.1, c.2, change2⟩ : Perturbation)))
        else none
      else if mask ≠ 0 then
        some (flagOffsets.filterMap (fun f =>
          if mask.testBit f.1 then
            let c : Int := if gd.mines.get (setx + f.2.1) (sety + f.2.2) then -1 else 1
            if change2 = c then some (⟨setx + f.2.1, sety + f.2.2, change2⟩ : Perturbation)
            else none
          else none))
      else
        some ((gridPoints gd.grid.w gd.grid.h).filterMap (fun cell =>
          if gd.grid.get cell.1 cell.2 = Unknown then
            let c : Int := if gd.mines.get cell.1 cell.2 then -1 else 1
            if change2 = c then some (⟨cell.1, cell.2, change2⟩ : Perturbation)
            else none
          else none))
    let ret := ret1 ++ ret2
    if ret.length = 2 * todo.length then
      if ret.all (fun p => !((p.x - gd.params.sx).natAbs ≤ 1 ∧ (p.y - gd.params.sy).natAbs ≤ 1)) then
        match applyChanges gd.grid gd.mines ret with
        | some gm => some (ret, { gd with grid := gm.1, mines := gm.2 }, st2)
        | none => none
      else none
    else none

/-! ## Solver (solver.cpp) -/

/-- Embedding of `build_square_todolist`: the already-known cells, in
row-major index order. -/
def buildSquareTodolist (grid : Grid Int) : List (Int × Int) :=
  (gridPoints grid.w grid.h).filter (fun c => grid.get c.1 c.2 ≠ Unknown)

/-- Embedding of `mark_known_squares`: walk the squares of the set
(`foreachSquare` order), skip already-known cells, write
`MarkedAsMine` or the `mineLookup` value, and append to the square todo. -/
def markKnownSquares (mines : Grid Bool) (grid : Grid Int) (stodo : List (Int × Int))
    (x y : Int) (mask : Nat) (mine : Bool) : Grid Int × List (Int × Int) :=
  (squaresList ⟨x, y, mask⟩).foldl (fun (acc : Grid Int × List (Int × Int)) c =>
    if acc.1.get c.1 c.2 ≠ Unknown then acc
    else
      let v : Int := if mine then MarkedAsMine else mineLookup mines c.1 c.2
      (acc.1.setc c.1 c.2 v, acc.2 ++ [c])) (grid, stodo)

/-- Embedding of `mark_known_square`: a single square via the TOP_LEFT mask. -/
def markKnownSquare (mines : Grid Bool) (grid : Grid Int) (stodo : List (Int × Int))
    (x y : Int) (mine : Bool) : Grid Int × List (Int × Int) :=
  markKnownSquares mines grid stodo x y TOP_LEFT mine

/-- The neighbor table of `process_newly_known_squares` (flag bit, delta). -/
def solverNeighbors : List (Nat × Int × Int) :=
  [(0, (-1, -1)), (1, (0, -1)), (2, (1, -1)), (3, (-1, 0)),
   (5, (1, 0)), (6, (-1, 1)), (7, (0, 1)), (8, (1, 1))]

/-- Processing of one newly-known cell (the body of the loop of
`process_newly_known_squares`): derive the local constraint of a revealed
cell, then split every stored set containing the cell. -/
def processCell (grid : Grid Int) (ss : SetStore) (c : Int × Int) : SetStore :=
  let x := c.1
  let y := c.2
  let ss1 :=
    if grid.get x y ≥ 0 then
      let step := solverNeighbors.foldl (fun (acc : Int × Nat) nb =>
        if grid.inb (x + nb.2.1) (y + nb.2.2) then
          if grid.get (x + nb.2.1) (y + nb.2.2) = MarkedAsMine then (acc.1 - 1, acc.2)
          else if grid.get (x + nb.2.1) (y + nb.2.2) = Unknown then
            (acc.1, acc.2 ||| (1 <<< nb.1))
          else acc
        else acc) (grid.get x y, 0)
      if step.2 ≠ 0 then ss.add (x - 1) (y - 1) step.2 step.1 else ss
    else ss
  let list := ss1.overlap x y TOP_LEFT
  list.foldl (fun acc e =>
    let newmask := (SquareSet.sdiff e.key ⟨x, y, TOP_LEFT⟩).mask
    let newmines := e.mines - (if grid.get x y = MarkedAsMine then 1 else 0)
    let acc2 := if newmask ≠ 0 then acc.add e.key.x e.key.y newmask newmines else acc
    acc2.eraseKey e.key) ss1

/-- Embedding of `process_newly_known_squares` (the caller clears the todo
list afterwards). -/
def processNewlyKnown (stodo : List (Int × Int)) (grid : Grid Int) (ss : SetStore) : SetStore :=
  stodo.foldl (fun acc c => processCell grid acc c) ss

/-- Embedding of `process_next_todo`: the trivial rule, else the pairwise
wing rule and the subset rule over all overlapping sets.  The two
`assert(... > ...)` statements are guards. -/
def processNextTodo (s : SSElem) (mines : Grid Bool) (grid : Grid Int)
    (stodo : List (Int × Int)) (ss : SetStore) :
    Option (Grid Int × List (Int × Int) × SetStore) :=
  if s.mines = 0 ∨ s.mines = (maskCount s.key.mask : Int) then
    let r := markKnownSquares mines grid stodo s.key.x s.key.y s.key.mask (s.mines ≠ 0)
    some (r.1, r.2, ss)
  else
    (ss.overlap s.key.x s.key.y s.key.mask).foldlM
      (fun (acc : Grid Int × List (Int × Int) × SetStore) s2 =>
        let swing := (SquareSet.sdiff s.key s2.key).mask
        let s2wing := (SquareSet.sdiff s2.key s.key).mask
        let swc : Int := (maskCount swing : Nat)
        let s2wc : Int := (maskCount s2wing : Nat)
        if swc = s.mines - s2.mines ∨ s2wc = s2.mines - s.mines then
          let r1 := markKnownSquares mines acc.1 acc.2.1 s.key.x s.key.y swing
              (decide (swc = s.mines - s2.mines))
          let r2 := markKnownSquares mines r1.1 r1.2 s2.key.x s2.key.y s2wing
              (decide (s2wc = s2.mines - s.mines))
          some (r2.1, r2.2, acc.2.2)
        else if swc = 0 ∧ s2wc ≠ 0 then
          if s2.mines > s.mines then
            some (acc.1, acc.2.1, acc.2.2.add s2.key.x s2.key.y s2wing (s2.mines - s.mines))
          else none
        else if s2wc = 0 ∧ swc ≠ 0 then
          if s.mines > s2.mines then
            some (acc.1, acc.2.1, acc.2.2.add s.key.x s.key.y swing (s.mines - s2.mines))
          else none
        else some acc) (grid, stodo, ss)

/-- The disjoint-union search of `attempt_global_deduction`.  The iterative
"virtual recursion" of the source explores, at each set, inclusion first
(when disjoint from the union so far), then exclusion on backtrack; this
recursive form explores the same tree in the same order and returns the same
first success (the chosen sets and the remaining mine count). -/
def gdSearch : List SSElem → Int → Int → List SSElem → Option (List SSElem × Int)
  | [], ml, sl, used =>
    if sl > 0 ∧ (ml = 0 ∨ ml = sl) then some (used, ml) else none
  | s :: rest, ml, sl, used =>
    if used.all (fun u => (SquareSet.inter s.key u.key).mask = 0) then
      match gdSearch rest (ml - s.mines) (sl - (maskCount s.key.mask : Nat)) (used ++ [s]) with
      | some r => some r
      | none => gdSearch rest ml sl used
    else gdSearch rest ml sl used

/-- Embedding of `attempt_global_deduction`. -/
def attemptGlobal (squaresleft minesleft : Int) (mines : Grid Bool) (grid : Grid Int)
    (stodo : List (Int × Int)) (ss : SetStore) :
    Bool × Grid Int × List (Int × Int) :=
  if minesleft = 0 ∨ minesleft = squaresleft then
    let r := (gridPoints grid.w grid.h).foldl
      (fun (acc : Grid Int × List (Int × Int)) c =>
        if acc.1.get c.1 c.2 = Unknown then
          markKnownSquare mines acc.1 acc.2 c.1 c.2 (decide (minesleft ≠ 0))
        else acc) (grid, stodo)
    (true, r.1, r.2)
  else if ss.size > 10 then (false, grid, stodo)
  else
    match gdSearch ss.elems minesleft squaresleft [] with
    | some (used, ml) =>
      let r := (gridPoints grid.w grid.h).foldl
        (fun (acc : Grid Int × List (Int × Int)) c =>
          if acc.1.get c.1 c.2 = Unknown then
            if used.all (fun u => (SquareSet.inter u.key ⟨c.1, c.2, TOP_LEFT⟩).mask = 0) then
              markKnownSquare mines acc.1 acc.2 c.1 c.2 (decide (ml ≠ 0))
            else acc
          else acc) (grid, stodo)
      (true, r.1, r.2)
    | none => (false, grid, stodo)

/-- State of the perturbator object visible to the solver: use count, the
big-perturbation flag of `BuiltinPerturbator`, and the shared random engine. -/
structure PertState where
  useCount : Nat
  allowBig : Bool
  rng : Nat
deriving Repr

/-- Embedding of `perturb_grid` together with `Perturbator::perturb(ctx, ss)`
and `BuiltinPerturbator::do_perturb`: pick the input set (uniformly from the
store, or all-unknowns when the store is empty), run `mineperturb`, then
re-enqueue the solver state.  The returned flag is the `perturb_grid`
result. -/
def perturbGrid (gd : GameData) (ss : SetStore) (ps : PertState) :
    Option (Bool × GameData × List (Int × Int) × SetStore × PertState) :=
  let pick : (Int × Int × Nat) × Nat :=
    if ss.size = 0 then ((-1, -1, 0), ps.rng)
    else
      let d := uniformNat ps.rng ss.size
      match ss.elems.get? d.1 with
      | some e => ((e.key.x, e.key.y, e.key.mask), d.2)
      | none => ((-1, -1, 0), d.2)
  match mineperturb gd pick.1.1 pick.1.2.1 pick.1.2.2 pick.2 ps.allowBig with
  | none => none
  | some (perturbations, gd2, st2) =>
    let ps2 : PertState := ⟨ps.useCount + 1, ps.allowBig, st2⟩
    if perturbations = [] then some (false, gd2, [], ss, ps2)
    else
      let upd := perturbations.foldl
        (fun (acc : List (Int × Int) × SetStore) p =>
          let stodo2 := if p.delta = -1 ∧ gd2.grid.get p.x p.y ≠ Unknown
                        then acc.1 ++ [(p.x, p.y)] else acc.1
          let list := acc.2.overlap p.x p.y TOP_LEFT
          let ss2 := list.foldl (fun (ssa : SetStore) e =>
            let ssb : SetStore := ⟨ssa.elems.map (fun e2 =>
              if e2.key = e.key then { e2 with mines := e2.mines + p.delta } else e2),
              ssa.queue⟩
            ssb.addTodoKey e.key) acc.2
          (stodo2, ss2)) ([], ss)
      some (true, gd2, upd.1, upd.2, ps2)

/-- The main loop of `Solver::solve`, with fuel.  The final
`assert(minesleft == 0)` is a guard. -/
def solveLoop (usePert : Bool) (n : Int) :
    Nat → GameData → List (Int × Int) → SetStore → PertState →
    Option (Bool × GameData × PertState)
  | 0, _, _, _, _ => none
  | fuel + 1, gd, stodo, ss, ps =>
    let ss1 := processNewlyKnown stodo gd.grid ss
    match ss1.nextTodo with
    | some (elem, ss2) =>
      (processNextTodo elem gd.mines gd.grid [] ss2).bind fun r =>
        solveLoop usePert n fuel { gd with grid := r.1 } r.2.1 r.2.2 ps
    | none =>
      let squaresleft : Int := (gd.grid.countP (fun v => v == Unknown) : Nat)
      let minesleft : Int := n - ((gd.grid.countP (fun v => v == MarkedAsMine) : Nat) : Int)
      if squaresleft = 0 then
        if minesleft = 0 then
          some (decide (gd.grid.countP (fun v => v == Unknown) = 0), gd, ps)
        else none
      else
        let glob := if n ≥ 0 then attemptGlobal squaresleft minesleft gd.mines gd.grid [] ss1
                    else (false, gd.grid, [])
        if glob.1 then
          solveLoop usePert n fuel { gd with grid := glob.2.1 } glob.2.2 ss1 ps
        else if usePert then
          match perturbGrid gd ss1 ps with
          | none => none
          | some (success, gd2, stodo2, ss2, ps2) =>
            if success then solveLoop usePert n fuel gd2 stodo2 ss2 ps2
            else some (decide (gd2.grid.countP (fun v => v == Unknown) = 0), gd2, ps2)
        else
          some (decide (gd.grid.countP (fun v => v == Unknown) = 0), gd, ps)

/-- Embedding of `Solver::solve`: count the mines, build the initial square
todo list, and run the main loop. -/
def solve (usePert : Bool) (fuel : Nat) (gd : GameData) (ps : PertState) :
    Option (Bool × GameData × PertState) :=
  let n : Int := (gd.mines.countP (fun b => b) : Nat)
  solveLoop usePert n fuel gd (buildSquareTodolist gd.grid) SetStore.empty ps

/-! ## Generator (generator.cpp) -/

/-- The random mine placement of `minegen`: list the cells outside the safe
starting 3x3 (row-major), shuffle, keep the first `n`.  `resize(n)` on the
position vector value-initializes missing entries to index 0, which the
embedding reproduces with the `(0, 0)` padding. -/
def placeMines (w h n : Nat) (x y : Int) (st : Nat) : Grid Bool × Nat :=
  let minespos := (gridPoints w h).filter (fun c =>
    1 < (c.2 - y).natAbs ∨ 1 < (c.1 - x).natAbs)
  let r := shuffleList minespos st
  let kept := r.1.take n ++ List.replicate (n - minespos.length) ((0 : Int), (0 : Int))
  (kept.foldl (fun (g : Grid Bool) c => g.setc c.1 c.2 true) (Grid.fill w h false), r.2)

/-- The solver-verification loop of `minegen` (the inner `for (;;)`), with
fuel.  The `assert(grid.at(x, y) == Mine0)` is a guard.  Returns the
acceptance flag, the final game data, and the engine state. -/
def minegenInner (sfuel : Nat) (ntries : Nat) :
    Nat → GameData → Int → Nat → Option (Bool × GameData × Nat)
  | 0, _, _, _ => none
  | fuel + 1, gd, nbperturbs, rng =>
    let grid1 := (Grid.fill gd.grid.w gd.grid.h Unknown).setc gd.params.sx gd.params.sy
        (mineLookup gd.mines gd.params.sx gd.params.sy)
    if grid1.get gd.params.sx gd.params.sy = 0 then
      match solve true sfuel { gd with grid := grid1 } ⟨0, decide (100 < ntries), rng⟩ with
      | none => none
      | some (solved, gd2, ps2) =>
        if ¬ solved ∨ (0 ≤ nbperturbs ∧ nbperturbs ≤ (ps2.useCount : Int)) then
          some (false, gd2, ps2.rng)
        else if ps2.useCount = 0 then some (true, gd2, ps2.rng)
        else minegenInner sfuel ntries fuel gd2 (ps2.useCount : Int) ps2.rng
    else none

/-- The outer retry loop of `minegen`, with fuel. -/
def minegenOuter (sfuel ifuel : Nat) (w h n : Nat) (x y : Int) (unique : Bool) :
    Nat → Nat → Nat → Option (Grid Bool × Nat)
  | 0, _, _ => none
  | fuel + 1, ntries, rng =>
    let pm := placeMines w h n x y rng
    if unique then
      let gd : GameData := ⟨⟨w, h, n, unique, x, y, 0⟩, pm.1, Grid.fill w h Unknown⟩
      match minegenInner sfuel (ntries + 1) ifuel gd (-1) pm.2 with
      | none => none
      | some (success, gd2, rng2) =>
        if success then some (gd2.mines, rng2)
        else minegenOuter sfuel ifuel w h n x y unique fuel (ntries + 1) rng2
    else some (pm.1, pm.2)

/-- Embedding of `Generator::generate`: seed selection (explicit seed, else
the stored seed, else one drawn from the entropy source), engine seeding,
then `minegen`.  `mseed` is the generator member `m_seed`; `entropySeed`
stands for the value `Generator::seed()` would obtain from
`std::random_device`. -/
def generate (mseed entropySeed : Nat) (params : GameParams)
    (sfuel ifuel ofuel : Nat) : Option (Grid Bool × Nat) :=
  let s := if params.seed ≠ 0 then params.seed
           else if mseed = 0 then entropySeed else mseed
  minegenOuter sfuel ifuel params.width params.height params.minecount params.sx params.sy
    params.unique ofuel 0 (seedEngine s)

/-! ## Derived predicates of the data model -/

/-- Executable form of the display invariant: every in-bounds revealed cell
shows its true neighbor mine count. -/
def consistentB (grid : Grid Int) (mines : Grid Bool) : Bool :=
  (gridPoints grid.w grid.h).all (fun c =>
    !(decide (0 ≤ grid.get c.1 c.2))
      || grid.get c.1 c.2 == (neighborMineCount mines c.1 c.2 : Int))

/-- Executable form of the stronger knowledge invariant: every in-bounds
known cell shows exactly the `Game::mineLookup` value (marked cells are
mines, revealed cells show the true count). -/
def truthB (grid : Grid Int) (mines : Grid Bool) : Bool :=
  (gridPoints grid.w grid.h).all (fun c =>
    grid.get c.1 c.2 == Unknown || grid.get c.1 c.2 == mineLookup mines c.1 c.2)

/-- Executable statement that every square of a square set lies inside the
grid. -/
def setInbB {alpha : Type} (g : Grid alpha) (setx sety : Int) (mask : Nat) : Bool :=
  flagOffsets.all (fun f => !(mask.testBit f.1) || g.inb (setx + f.2.1) (sety + f.2.2))

/-- The number of true mines among the squares of a square set. -/
def mineCountSq (mines : Grid Bool) (s : SquareSet) : Nat :=
  ((squaresList s).filter (fun c => mines.get c.1 c.2)).length

/-! ## Grid toolkit -/

theorem get_setc_self {alpha : Type} (g : Grid alpha) (x y : Int) (v : alpha) :
    (g.setc x y v).get x y = v := by
  simp [Grid.setc, Grid.get]

theorem get_setc_ne {alpha : Type} (g : Grid alpha) (x y : Int) (v : alpha)
    (x2 y2 : Int) (h : ¬ (x2 = x ∧ y2 = y)) : (g.setc x y v).get x2 y2 = g.get x2 y2 := by
  simp only [Grid.setc, Grid.get]
  rw [if_neg h]

theorem setc_w {alpha : Type} (g : Grid alpha) (x y : Int) (v : alpha) :
    (g.setc x y v).w = g.w := rfl

theorem setc_h {alpha : Type} (g : Grid alpha) (x y : Int) (v : alpha) :
    (g.setc x y v).h = g.h := rfl

theorem inb_setc {alpha : Type} (g : Grid alpha) (x y : Int) (v : alpha) (x2 y2 : Int) :
    (g.setc x y v).inb x2 y2 = g.inb x2 y2 := rfl

theorem get_fill {alpha : Type} (w h : Nat) (v : alpha) (x y : Int) :
    (Grid.fill w h v).get x y = v := rfl

theorem mem_gridPoints (w h : Nat) (px py : Int) :
    (px, py) ∈ gridPoints w h ↔ 0 ≤ px ∧ px < (w : Int) ∧ 0 ≤ py ∧ py < (h : Int) := by
  unfold gridPoints
  rw [List.mem_map]
  constructor
  · rintro ⟨i, hi, heq⟩
    rw [List.mem_range] at hi
    obtain ⟨h1, h2⟩ := Prod.ext_iff.mp heq
    dsimp at h1 h2
    subst h1; subst h2
    have hw : 0 < w := by
      rcases Nat.eq_zero_or_pos w with h | h
      · subst h; simp at hi
      · exact h
    have hmod : i % w < w := Nat.mod_lt _ hw
    have hdiv : i / w < h := Nat.div_lt_of_lt_mul (by omega)
    refine ⟨Int.natCast_nonneg _, by exact_mod_cast hmod, Int.natCast_nonneg _,
      by exact_mod_cast hdiv⟩
  · rintro ⟨h1, h2, h3, h4⟩
    refine ⟨py.toNat * w + px.toNat, ?_, ?_⟩
    · rw [List.mem_range]
      have hpx : px.toNat < w := by omega
      have hpy : py.toNat < h := by omega
      calc py.toNat * w + px.toNat < py.toNat * w + w := by omega
        _ = (py.toNat + 1) * w := by ring
        _ ≤ h * w := Nat.mul_le_mul_right _ (by omega)
        _ = w * h := Nat.mul_comm _ _
    · have hpx : px.toNat < w := by omega
      have hmod : (py.toNat * w + px.toNat) % w = px.toNat := by
        rw [Nat.add_comm, Nat.add_mul_mod_self_right, Nat.mod_eq_of_lt hpx]
      have hdiv : (py.toNat * w + px.toNat) / w = py.toNat := by
        rw [Nat.add_comm, Nat.add_mul_div_right _ _ (by omega : 0 < w),
          Nat.div_eq_of_lt hpx]
        omega
      rw [hmod, hdiv]
      have : (px.toNat : Int) = px := Int.toNat_of_nonneg h1
      have : (py.toNat : Int) = py := Int.toNat_of_nonneg h3
      simp_all

theorem gridPoints_nodup (w h : Nat) : (gridPoints w h).Nodup := by
  unfold gridPoints
  refine List.Nodup.map_on ?_ (List.nodup_range _)
  intro i hi j hj heq
  rw [List.mem_range] at hi hj
  obtain ⟨h1, h2⟩ := Prod.ext_iff.mp heq
  dsimp at h1 h2
  have hw : 0 < w := by
    rcases Nat.eq_zero_or_pos w with h | h
    · subst h; simp at hi
    · exact h
  have e1 : i % w = j % w := by exact_mod_cast h1
  have e2 : i / w = j / w := by exact_mod_cast h2
  calc i = w * (i / w) + i % w := (Nat.div_add_mod i w).symm
    _ = w * (j / w) + j % w := by rw [e1, e2]
    _ = j := Nat.div_add_mod j w

theorem inb_iff_mem {alpha : Type} (g : Grid alpha) (x y : Int) :
    g.inb x y = true ↔ (x, y) ∈ gridPoints g.w g.h := by
  rw [mem_gridPoints]
  simp only [Grid.inb, Bool.and_eq_true, decide_eq_true_eq]
  tauto

theorem countP_eq (g : Grid Int) (p : Int → Bool) :
    Grid.countP g p = (gridPoints g.w g.h).countP (fun c => p (g.get c.1 c.2)) := by
  rw [Grid.countP, List.countP_eq_length_filter]

theorem countPB_eq {alpha : Type} (g : Grid alpha) (p : alpha → Bool) :
    Grid.countP g p = (gridPoints g.w g.h).countP (fun c => p (g.get c.1 c.2)) := by
  rw [Grid.countP, List.countP_eq_length_filter]

theorem list_countP_update {beta : Type} [DecidableEq beta] (f g : beta → Bool) (c0 : beta) :
    ∀ L : List beta, L.Nodup → c0 ∈ L → (∀ c ∈ L, c ≠ c0 → f c = g c) →
    L.countP f + (if g c0 then 1 else 0) = L.countP g + (if f c0 then 1 else 0) := by
  intro L
  induction L with
  | nil => intro _ h; simp at h
  | cons a L ih =>
    intro hnd hmem hoff
    rw [List.nodup_cons] at hnd
    rcases List.mem_cons.mp hmem with rfl | hmem2
    · have hrest : L.countP f = L.countP g := by
        apply List.countP_congr
        intro c hc
        rw [hoff c (List.mem_cons_of_mem _ hc) (fun h => hnd.1 (h ▸ hc))]
      rw [List.countP_cons, List.countP_cons, hrest]
      by_cases h1 : f c0 <;> by_cases h2 : g c0 <;> simp [h1, h2] <;> omega
    · have ha : a ≠ c0 := fun h => by
        subst h
        exact hnd.1 hmem2
      have hfa : f a = g a := hoff a (List.mem_cons_self _ _) ha
      rw [List.countP_cons, List.countP_cons, hfa]
      have := ih hnd.2 hmem2 (fun c hc => hoff c (List.mem_cons_of_mem _ hc))
      by_cases h2 : g a <;> simp [h2] <;> omega

theorem countP_setc {alpha : Type} [DecidableEq alpha] (g : Grid alpha) (p : alpha → Bool)
    (x y : Int) (v : alpha) (hin : g.inb x y = true) :
    (g.setc x y v).countP p + (if p (g.get x y) then 1 else 0)
      = g.countP p + (if p v then 1 else 0) := by
  rw [countPB_eq, countPB_eq, setc_w, setc_h]
  have h := list_countP_update (fun c => p ((g.setc x y v).get c.1 c.2))
    (fun c => p (g.get c.1 c.2)) (x, y) (gridPoints g.w g.h) (gridPoints_nodup _ _)
    ((inb_iff_mem g x y).mp hin) ?_
  · simpa [get_setc_self] using h
  · intro c _ hc
    dsimp
    rw [get_setc_ne]
    intro hcc
    exact hc (by
      obtain ⟨c1, c2⟩ := c
      dsimp at hcc
      rw [hcc.1, hcc.2])

theorem countP_congr_grid {alpha : Type} (g1 g2 : Grid alpha) (p : alpha → Bool)
    (hw : g2.w = g1.w) (hh : g2.h = g1.h)
    (hsame : ∀ x y : Int, g1.inb x y = true → g2.get x y = g1.get x y) :
    g2.countP p = g1.countP p := by
  rw [countPB_eq, countPB_eq, hw, hh]
  apply List.countP_congr
  intro c hc
  obtain ⟨c1, c2⟩ := c
  rw [hsame c1 c2 ((inb_iff_mem g1 c1 c2).mpr hc)]

theorem mem_neighborOffsets (d : Int × Int) :
    d ∈ neighborOffsets ↔ d.1.natAbs ≤ 1 ∧ d.2.natAbs ≤ 1 ∧ ¬ (d.1 = 0 ∧ d.2 = 0) := by
  obtain ⟨a, b⟩ := d
  simp only [neighborOffsets, List.mem_cons, List.not_mem_nil, or_false, Prod.mk.injEq]
  constructor
  · intro h
    rcases h with ⟨h1, h2⟩ | ⟨h1, h2⟩ | ⟨h1, h2⟩ | ⟨h1, h2⟩ | ⟨h1, h2⟩ | ⟨h1, h2⟩
      | ⟨h1, h2⟩ | ⟨h1, h2⟩ <;> (subst h1; subst h2; refine ⟨by decide, by decide, by decide⟩)
  · rintro ⟨h1, h2, h3⟩
    have ha : a = -1 ∨ a = 0 ∨ a = 1 := by omega
    have hb : b = -1 ∨ b = 0 ∨ b = 1 := by omega
    rcases ha with rfl | rfl | rfl <;> rcases hb with rfl | rfl | rfl <;> simp_all

theorem neighborOffsets_nodup : neighborOffsets.Nodup := by decide

theorem nmc_setc_adj (m : Grid Bool) (px py x y : Int) (v : Bool)
    (hin : m.inb px py = true)
    (hadj : (px - x).natAbs ≤ 1 ∧ (py - y).natAbs ≤ 1 ∧ ¬ (px = x ∧ py = y)) :
    neighborMineCount (m.setc px py v) x y + (if m.get px py then 1 else 0)
      = neighborMineCount m x y + (if v then 1 else 0) := by
  unfold neighborMineCount
  rw [← List.countP_eq_length_filter, ← List.countP_eq_length_filter]
  have hd0 : ((px - x, py - y) : Int × Int) ∈ neighborOffsets := by
    rw [mem_neighborOffsets]
    refine ⟨hadj.1, hadj.2.1, ?_⟩
    rintro ⟨h1, h2⟩
    exact hadj.2.2 ⟨by omega, by omega⟩
  have h := list_countP_update
    (fun d => (m.setc px py v).inb (x + d.1) (y + d.2)
      && (m.setc px py v).get (x + d.1) (y + d.2))
    (fun d => m.inb (x + d.1) (y + d.2) && m.get (x + d.1) (y + d.2))
    (px - x, py - y) neighborOffsets neighborOffsets_nodup hd0 ?_
  · dsimp only at h
    have hx : x + (px - x) = px := by omega
    have hy : y + (py - y) = py := by omega
    rw [hx, hy, inb_setc, hin, get_setc_self] at h
    simpa using h
  · intro d _ hd
    dsimp
    rw [inb_setc, get_setc_ne]
    intro hcc
    apply hd
    obtain ⟨d1, d2⟩ := d
    dsimp at hcc
    rw [Prod.mk.injEq]
    omega

theorem nmc_setc_far (m : Grid Bool) (px py x y : Int) (v : Bool)
    (hfar : ¬ ((px - x).natAbs ≤ 1 ∧ (py - y).natAbs ≤ 1) ∨ (px = x ∧ py = y)) :
    neighborMineCount (m.setc px py v) x y = neighborMineCount m x y := by
  unfold neighborMineCount
  congr 1
  apply List.filter_congr
  intro d hd
  rw [mem_neighborOffsets] at hd
  rw [inb_setc, get_setc_ne]
  intro hcc
  obtain ⟨d1, d2⟩ := d
  dsimp at hcc
  rcases hfar with h | h
  · apply h
    constructor <;> [skip; skip] <;> omega
  · obtain ⟨h1, h2⟩ := h
    apply hd.2.2
    constructor <;> omega

/-! ## Perturbation application toolkit -/

theorem inb_congr {alpha beta : Type} (g1 : Grid alpha) (g2 : Grid beta)
    (hw : g1.w = g2.w) (hh : g1.h = g2.h) (x y : Int) : g1.inb x y = g2.inb x y := by
  unfold Grid.inb
  rw [hw, hh]

/-- The display invariant as a proposition. -/
def consistentP (grid : Grid Int) (mines : Grid Bool) : Prop :=
  ∀ x y : Int, grid.inb x y = true → 0 ≤ grid.get x y →
    grid.get x y = (neighborMineCount mines x y : Int)

/-- The knowledge invariant as a proposition. -/
def truthP (grid : Grid Int) (mines : Grid Bool) : Prop :=
  ∀ x y : Int, grid.inb x y = true → grid.get x y ≠ Unknown →
    grid.get x y = mineLookup mines x y

theorem consistentB_iff (grid : Grid Int) (mines : Grid Bool) :
    consistentB grid mines = true ↔ consistentP grid mines := by
  unfold consistentB consistentP
  rw [List.all_eq_true]
  constructor
  · intro h x y hin hge
    have := h (x, y) ((inb_iff_mem grid x y).mp hin)
    simp only [Bool.or_eq_true, Bool.not_eq_true', decide_eq_false_iff_not, beq_iff_eq] at this
    rcases this with h2 | h2
    · exact absurd hge h2
    · exact h2
  · intro h c hc
    obtain ⟨c1, c2⟩ := c
    simp only [Bool.or_eq_true, Bool.not_eq_true', decide_eq_false_iff_not, beq_iff_eq]
    by_cases hge : 0 ≤ grid.get c1 c2
    · exact Or.inr (h c1 c2 ((inb_iff_mem grid c1 c2).mpr hc) hge)
    · exact Or.inl hge

theorem truthB_iff (grid : Grid Int) (mines : Grid Bool) :
    truthB grid mines = true ↔ truthP grid mines := by
  unfold truthB truthP
  rw [List.all_eq_true]
  constructor
  · intro h x y hin hne
    have := h (x, y) ((inb_iff_mem grid x y).mp hin)
    simp only [Bool.or_eq_true, beq_iff_eq] at this
    rcases this with h2 | h2
    · exact absurd h2 hne
    · exact h2
  · intro h c hc
    obtain ⟨c1, c2⟩ := c
    simp only [Bool.or_eq_true, beq_iff_eq]
    by_cases hne : grid.get c1 c2 = Unknown
    · exact Or.inl hne
    · exact Or.inr (h c1 c2 ((inb_iff_mem grid c1 c2).mpr hc) hne)

theorem truthP_consistentP (grid : Grid Int) (mines : Grid Bool) (h : truthP grid mines) :
    consistentP grid mines := by
  intro x y hin hge
  have hne : grid.get x y ≠ Unknown := by unfold Unknown; omega
  have := h x y hin hne
  unfold mineLookup at this
  by_cases hm : mines.get x y = true
  · rw [if_pos hm] at this
    omega
  · rw [if_neg hm] at this
    exact this

theorem foldl_dims {iota : Type} (F : Grid Int → iota → Grid Int)
    (hdim : ∀ gr c, (F gr c).w = gr.w ∧ (F gr c).h = gr.h) :
    ∀ (l : List iota) (g : Grid Int), (l.foldl F g).w = g.w ∧ (l.foldl F g).h = g.h := by
  intro l
  induction l with
  | nil => intro g; exact ⟨rfl, rfl⟩
  | cons c rest ih =>
    intro g
    have h1 := ih (F g c)
    have h2 := hdim g c
    exact ⟨h1.1.trans h2.1, h1.2.trans h2.2⟩

theorem foldl_local_off {iota : Type} (F : Grid Int → iota → Grid Int)
    (addr : iota → Int × Int)
    (hoff : ∀ gr c x y, ¬ (x = (addr c).1 ∧ y = (addr c).2) → (F gr c).get x y = gr.get x y) :
    ∀ (l : List iota) (g : Grid Int) (x y : Int),
      (∀ c ∈ l, ¬ (x = (addr c).1 ∧ y = (addr c).2)) →
      (l.foldl F g).get x y = g.get x y := by
  intro l
  induction l with
  | nil => intro g x y _; rfl
  | cons c rest ih =>
    intro g x y hall
    rw [List.foldl_cons]
    rw [ih (F g c) x y (fun c2 hc2 => hall c2 (List.mem_cons_of_mem _ hc2))]
    exact hoff g c x y (hall c (List.mem_cons_self _ _))

theorem foldl_local_at {iota : Type} (F : Grid Int → iota → Grid Int)
    (addr : iota → Int × Int)
    (hdim : ∀ gr c, (F gr c).w = gr.w ∧ (F gr c).h = gr.h)
    (hoff : ∀ gr c x y, ¬ (x = (addr c).1 ∧ y = (addr c).2) → (F gr c).get x y = gr.get x y)
    (hdep : ∀ gr gr2 c, gr.w = gr2.w → gr.h = gr2.h →
      gr.get (addr c).1 (addr c).2 = gr2.get (addr c).1 (addr c).2 →
      (F gr c).get (addr c).1 (addr c).2 = (F gr2 c).get (addr c).1 (addr c).2) :
    ∀ (l : List iota), (l.map addr).Nodup → ∀ (g : Grid Int), ∀ c ∈ l,
      (l.foldl F g).get (addr c).1 (addr c).2 = (F g c).get (addr c).1 (addr c).2 := by
  intro l
  induction l with
  | nil => intro _ g c hc; simp at hc
  | cons a rest ih =>
    intro hnd g c hc
    rw [List.map_cons, List.nodup_cons] at hnd
    rw [List.foldl_cons]
    rcases List.mem_cons.mp hc with rfl | hc2
    · have hrest : ∀ c2 ∈ rest, ¬ ((addr c).1 = (addr c2).1 ∧ (addr c).2 = (addr c2).2) := by
        intro c2 hc2 hcc
        apply hnd.1
        rw [List.mem_map]
        refine ⟨c2, hc2, ?_⟩
        exact Prod.ext_iff.mpr ⟨hcc.1.symm, hcc.2.symm⟩
      exact foldl_local_off F addr hoff rest (F g c) _ _ hrest
    · rw [ih hnd.2 (F g a) c hc2]
      apply hdep
      · exact (hdim g a).1
      · exact (hdim g a).2
      · apply hoff
        intro hcc
        apply hnd.1
        rw [List.mem_map]
        exact ⟨c, hc2, Prod.ext_iff.mpr ⟨hcc.1, hcc.2⟩⟩

theorem pertStep_dims (m2 : Grid Bool) (p : Perturbation) (gr : Grid Int) (d : Int × Int) :
    (pertStep m2 p gr d).w = gr.w ∧ (pertStep m2 p gr d).h = gr.h := by
  unfold pertStep
  split
  · split
    · split
      · exact ⟨rfl, rfl⟩
      · exact ⟨rfl, rfl⟩
    · split
      · exact ⟨rfl, rfl⟩
      · exact ⟨rfl, rfl⟩
  · exact ⟨rfl, rfl⟩

theorem pertStep_get_off (m2 : Grid Bool) (p : Perturbation) (gr : Grid Int) (d : Int × Int)
    (x y : Int) (h : ¬ (x = p.x + d.1 ∧ y = p.y + d.2)) :
    (pertStep m2 p gr d).get x y = gr.get x y := by
  unfold pertStep
  split
  · split
    next hc =>
      have hxx : ¬ (x = p.x ∧ y = p.y) := by
        intro hh
        exact h ⟨by omega, by omega⟩
      split
      · exact get_setc_ne _ _ _ _ _ _ hxx
      · exact get_setc_ne _ _ _ _ _ _ hxx
    next hc =>
      split
      · exact get_setc_ne _ _ _ _ _ _ h
      · rfl
  · rfl

theorem pertStep_get_at (m2 : Grid Bool) (p : Perturbation) (gr gr2 : Grid Int)
    (d : Int × Int) (hw : gr.w = gr2.w) (hh : gr.h = gr2.h)
    (hv : gr.get (p.x + d.1) (p.y + d.2) = gr2.get (p.x + d.1) (p.y + d.2)) :
    (pertStep m2 p gr d).get (p.x + d.1) (p.y + d.2)
      = (pertStep m2 p gr2 d).get (p.x + d.1) (p.y + d.2) := by
  have hinb : ∀ a b : Int, gr.inb a b = gr2.inb a b := fun a b => inb_congr _ _ hw hh a b
  unfold pertStep
  simp only [hinb, hv]
  split
  next h1 =>
    split
    next hc =>
      obtain ⟨e1, e2⟩ := hc
      rw [e1, e2]
      simp only [add_zero]
      split
      next hd => rw [get_setc_self, get_setc_self]
      next hd => simp only [get_setc_self]
    next hc =>
      split
      next hg => rw [get_setc_self, get_setc_self]
      next hg => exact hv
  next h1 => exact hv

theorem mem_blockOffsets (d : Int × Int) :
    d ∈ blockOffsets ↔ d.1.natAbs ≤ 1 ∧ d.2.natAbs ≤ 1 := by
  obtain ⟨a, b⟩ := d
  simp only [blockOffsets, List.mem_cons, List.not_mem_nil, or_false, Prod.mk.injEq]
  constructor
  · intro h
    rcases h with ⟨h1, h2⟩ | ⟨h1, h2⟩ | ⟨h1, h2⟩ | ⟨h1, h2⟩ | ⟨h1, h2⟩ | ⟨h1, h2⟩
      | ⟨h1, h2⟩ | ⟨h1, h2⟩ | ⟨h1, h2⟩ <;> (subst h1; subst h2; exact ⟨by decide, by decide⟩)
  · rintro ⟨h1, h2⟩
    have ha : a = -1 ∨ a = 0 ∨ a = 1 := by omega
    have hb : b = -1 ∨ b = 0 ∨ b = 1 := by omega
    rcases ha with rfl | rfl | rfl <;> rcases hb with rfl | rfl | rfl <;> simp_all

theorem blockAddrs_nodup (p : Perturbation) :
    (blockOffsets.map (fun d : Int × Int => (p.x + d.1, p.y + d.2))).Nodup := by
  refine List.Nodup.map_on ?_ (by decide)
  intro d1 _ d2 _ heq
  obtain ⟨h1, h2⟩ := Prod.ext_iff.mp heq
  dsimp only at h1 h2
  obtain ⟨a1, b1⟩ := d1
  obtain ⟨a2, b2⟩ := d2
  rw [Prod.mk.injEq]
  constructor <;> omega

theorem applyOne_grid_far (m2 : Grid Bool) (p : Perturbation) (grid : Grid Int)
    (x y : Int) (hfar : ¬ ((x - p.x).natAbs ≤ 1 ∧ (y - p.y).natAbs ≤ 1)) :
    (blockOffsets.foldl (pertStep m2 p) grid).get x y = grid.get x y := by
  apply foldl_local_off (pertStep m2 p) (fun d : Int × Int => (p.x + d.1, p.y + d.2))
  · intro gr c x2 y2 hc
    exact pertStep_get_off m2 p gr c x2 y2 hc
  · intro c hc hcc
    rw [mem_blockOffsets] at hc
    dsimp only at hcc
    apply hfar
    obtain ⟨c1, c2⟩ := c
    constructor <;> omega

theorem applyOne_grid_near (m2 : Grid Bool) (p : Perturbation) (grid : Grid Int)
    (x y : Int) (hnear : (x - p.x).natAbs ≤ 1 ∧ (y - p.y).natAbs ≤ 1) :
    (blockOffsets.foldl (pertStep m2 p) grid).get x y
      = (pertStep m2 p grid (x - p.x, y - p.y)).get x y := by
  have hmem : ((x - p.x, y - p.y) : Int × Int) ∈ blockOffsets := by
    rw [mem_blockOffsets]
    exact hnear
  have h := foldl_local_at (pertStep m2 p) (fun d : Int × Int => (p.x + d.1, p.y + d.2))
    (fun gr c => pertStep_dims m2 p gr c)
    (fun gr c x2 y2 hc => pertStep_get_off m2 p gr c x2 y2 hc)
    (fun gr gr2 c hw hh hv => pertStep_get_at m2 p gr gr2 c hw hh hv)
    blockOffsets (blockAddrs_nodup p) grid (x - p.x, y - p.y) hmem
  dsimp only at h
  have ha : p.x + (x - p.x) = x := by omega
  have hb : p.y + (y - p.y) = y := by omega
  rw [ha, hb] at h
  exact h

theorem pertStep_eval (m2 : Grid Bool) (p : Perturbation) (grid : Grid Int) (x y : Int) :
    (pertStep m2 p grid (x - p.x, y - p.y)).get x y =
      if grid.inb x y && decide (grid.get x y ≠ Unknown) then
        if x = p.x ∧ y = p.y then
          if p.delta = 1 then MarkedAsMine
          else ((blockOffsets.filter (fun d2 => grid.inb (p.x + d2.1) (p.y + d2.2)
            && m2.get (p.x + d2.1) (p.y + d2.2))).length : Int)
        else
          if grid.get x y ≥ 0 then grid.get x y + p.delta else grid.get x y
      else grid.get x y := by
  unfold pertStep
  have ha : p.x + (x - p.x, y - p.y).1 = x := by dsimp only; omega
  have hb : p.y + (x - p.x, y - p.y).2 = y := by dsimp only; omega
  rw [ha, hb]
  split
  next h1 =>
    by_cases hc : x = p.x ∧ y = p.y
    · rw [if_pos (show (x - p.x, y - p.y).1 = 0 ∧ (x - p.x, y - p.y).2 = 0 by
        dsimp only; omega), if_pos hc]
      obtain ⟨e1, e2⟩ := hc
      split
      next => rw [e1, e2]; exact get_setc_self _ _ _ _
      next => rw [e1, e2]; simp only [get_setc_self]
    · rw [if_neg (show ¬ ((x - p.x, y - p.y).1 = 0 ∧ (x - p.x, y - p.y).2 = 0) by
        dsimp only; omega), if_neg hc]
      split
      next => exact get_setc_self _ _ _ _
      next => rfl
  next h1 => rfl

theorem block_filter_eq_nmc (g : Grid Int) (m : Grid Bool) (px py : Int)
    (hw : g.w = m.w) (hh : g.h = m.h) (hm : m.get px py = false) :
    ((blockOffsets.filter (fun d2 => g.inb (px + d2.1) (py + d2.2)
        && m.get (px + d2.1) (py + d2.2))).length : Int)
      = (neighborMineCount m px py : Int) := by
  have hperm : blockOffsets.Perm (((0, 0) : Int × Int) :: neighborOffsets) := by decide
  have h1 := hperm.filter (fun d2 : Int × Int => g.inb (px + d2.1) (py + d2.2)
    && m.get (px + d2.1) (py + d2.2))
  rw [h1.length_eq, List.filter_cons]
  have h0 : (g.inb (px + ((0, 0) : Int × Int).1) (py + ((0, 0) : Int × Int).2)
      && m.get (px + ((0, 0) : Int × Int).1) (py + ((0, 0) : Int × Int).2)) = false := by
    dsimp only
    simp only [add_zero]
    rw [hm, Bool.and_false]
  rw [h0]
  simp only [Bool.false_eq_true, if_false]
  unfold neighborMineCount
  congr 2
  apply List.filter_congr
  intro d _
  rw [inb_congr g m hw hh]

theorem applyOne_some_parts (grid : Grid Int) (mines : Grid Bool) (p : Perturbation)
    (out : Grid Int × Grid Bool) (h : applyOne (grid, mines) p = some out) :
    (decide (p.delta = -1)) = mines.get p.x p.y
    ∧ out.2 = mines.setc p.x p.y (p.delta = 1)
    ∧ out.1 = blockOffsets.foldl (pertStep (mines.setc p.x p.y (p.delta = 1)) p) grid := by
  unfold applyOne at h
  dsimp only at h
  split at h
  next hg =>
    have h2 := Option.some.inj h
    exact ⟨hg, by rw [← h2], by rw [← h2]⟩
  next hg => exact absurd h (by simp)

theorem applyOne_grid_dims (grid : Grid Int) (mines : Grid Bool) (p : Perturbation)
    (out : Grid Int × Grid Bool) (h : applyOne (grid, mines) p = some out) :
    out.1.w = grid.w ∧ out.1.h = grid.h := by
  obtain ⟨-, -, hg2⟩ := applyOne_some_parts grid mines p out h
  rw [hg2]
  exact foldl_dims _ (fun gr c => pertStep_dims _ p gr c) blockOffsets grid

theorem applyOne_mines_off (grid : Grid Int) (mines : Grid Bool) (p : Perturbation)
    (out : Grid Int × Grid Bool) (h : applyOne (grid, mines) p = some out)
    (x y : Int) (hxy : ¬ (x = p.x ∧ y = p.y)) : out.2.get x y = mines.get x y := by
  obtain ⟨-, hm2, -⟩ := applyOne_some_parts grid mines p out h
  rw [hm2]
  exact get_setc_ne _ _ _ _ _ _ hxy

theorem applyOne_count (grid : Grid Int) (mines : Grid Bool) (p : Perturbation)
    (out : Grid Int × Grid Bool) (h : applyOne (grid, mines) p = some out)
    (hin : mines.inb p.x p.y = true) (hdelta : p.delta = 1 ∨ p.delta = -1) :
    out.2.countP (fun b => b) + (if p.delta = -1 then 1 else 0)
      = mines.countP (fun b => b) + (if p.delta = 1 then 1 else 0) := by
  obtain ⟨hg, hm2, -⟩ := applyOne_some_parts grid mines p out h
  have hc := countP_setc mines (fun b => b) p.x p.y (decide (p.delta = 1)) hin
  rw [← hm2] at hc
  rcases hdelta with hd | hd
  · have hmv : mines.get p.x p.y = false := by
      rw [← hg, hd]
      decide
    rw [hmv] at hc
    rw [hd] at hc ⊢
    simp at hc ⊢
    omega
  · have hmv : mines.get p.x p.y = true := by
      rw [← hg, hd]
      decide
    rw [hmv] at hc
    rw [hd] at hc ⊢
    simp at hc ⊢
    omega

theorem applyOne_truth (grid : Grid Int) (mines : Grid Bool) (p : Perturbation)
    (out : Grid Int × Grid Bool) (h : applyOne (grid, mines) p = some out)
    (hw : grid.w = mines.w) (hh : grid.h = mines.h)
    (hin : mines.inb p.x p.y = true) (hdelta : p.delta = 1 ∨ p.delta = -1)
    (htr : truthP grid mines) : truthP out.1 out.2 := by
  obtain ⟨hg, hm2, hg2⟩ := applyOne_some_parts grid mines p out h
  have hdims := applyOne_grid_dims grid mines p out h
  intro x y hinb hne
  have hgin : grid.inb x y = true := by
    rw [inb_congr grid out.1 hdims.1.symm hdims.2.symm]
    exact hinb
  by_cases hnear : (x - p.x).natAbs ≤ 1 ∧ (y - p.y).natAbs ≤ 1
  case neg =>
    have hval : out.1.get x y = grid.get x y := by
      rw [hg2]
      exact applyOne_grid_far _ p grid x y hnear
    have hnexy : ¬ (x = p.x ∧ y = p.y) := by
      intro hc
      exact hnear ⟨by omega, by omega⟩
    have hmxy : out.2.get x y = mines.get x y := applyOne_mines_off grid mines p out h x y hnexy
    have hold := htr x y hgin (by rw [← hval]; exact hne)
    have hnmc : neighborMineCount out.2 x y = neighborMineCount mines x y := by
      rw [hm2]
      exact nmc_setc_far mines p.x p.y x y _ (Or.inl (by omega))
    rw [hval, hold]
    unfold mineLookup
    rw [hmxy, hnmc]
  case pos =>
    have hval : out.1.get x y
        = (pertStep (mines.setc p.x p.y (p.delta = 1)) p grid (x - p.x, y - p.y)).get x y := by
      rw [hg2]
      exact applyOne_grid_near _ p grid x y hnear
    rw [pertStep_eval] at hval
    by_cases hu : grid.get x y = Unknown
    · rw [if_neg (by simp [hu])] at hval
      exact absurd (hval.trans hu) hne
    · have hcond : (grid.inb x y && decide (grid.get x y ≠ Unknown)) = true := by
        rw [hgin]
        simp [hu]
      rw [if_pos hcond] at hval
      have hold := htr x y hgin hu
      by_cases hcen : x = p.x ∧ y = p.y
      · rw [if_pos hcen] at hval
        obtain ⟨e1, e2⟩ := hcen
        subst e1
        subst e2
        rcases hdelta with hd | hd
        · rw [if_pos hd] at hval
          have hm : out.2.get p.x p.y = true := by
            rw [hm2, get_setc_self, hd]
            decide
          rw [hval]
          unfold mineLookup
          rw [hm]
          simp [MarkedAsMine]
        · rw [if_neg (by omega)] at hval
          have hmf : out.2.get p.x p.y = false := by
            rw [hm2, get_setc_self, hd]
            decide
          rw [← hm2] at hval
          have hcnt := block_filter_eq_nmc grid out.2 p.x p.y
            (by rw [hm2, setc_w]; exact hw) (by rw [hm2, setc_h]; exact hh) hmf
          rw [hval, hcnt]
          unfold mineLookup
          rw [hmf]
          simp
      · rw [if_neg hcen] at hval
        have hmeq : out.2.get x y = mines.get x y :=
          applyOne_mines_off grid mines p out h x y hcen
        by_cases hge : grid.get x y ≥ 0
        · rw [if_pos hge] at hval
          have hmfalse : mines.get x y = false := by
            by_contra hmk
            rw [Bool.not_eq_false] at hmk
            rw [hold] at hge
            unfold mineLookup at hge
            rw [hmk] at hge
            simp at hge
          have hnmceq : grid.get x y = (neighborMineCount mines x y : Int) := by
            rw [hold]
            unfold mineLookup
            rw [hmfalse]
            simp
          have hadj : (p.x - x).natAbs ≤ 1 ∧ (p.y - y).natAbs ≤ 1 ∧ ¬ (p.x = x ∧ p.y = y) := by
            refine ⟨by omega, by omega, ?_⟩
            intro hcc
            exact hcen ⟨hcc.1.symm, hcc.2.symm⟩
          have hnm := nmc_setc_adj mines p.x p.y x y (decide (p.delta = 1)) hin hadj
          rw [← hm2] at hnm
          rw [hval]
          unfold mineLookup
          rw [hmeq, hmfalse]
          simp only [Bool.false_eq_true, if_false]
          rcases hdelta with hd | hd
          · have hgp : mines.get p.x p.y = false := by
              rw [← hg, hd]
              decide
            rw [hgp, hd] at hnm
            simp at hnm
            rw [hnmceq, hd]
            omega
          · have hgp : mines.get p.x p.y = true := by
              rw [← hg, hd]
              decide
            rw [hgp, hd] at hnm
            simp at hnm
            rw [hnmceq, hd]
            omega
        · rw [if_neg hge] at hval
          have hmtrue : mines.get x y = true := by
            by_contra hmk
            rw [Bool.not_eq_true] at hmk
            rw [hold] at hge
            unfold mineLookup at hge
            rw [hmk] at hge
            simp at hge
          rw [hval, hold]
          unfold mineLookup
          rw [hmeq, hmtrue]
          simp

theorem applyOne_consistent (grid : Grid Int) (mines : Grid Bool) (p : Perturbation)
    (out : Grid Int × Grid Bool) (h : applyOne (grid, mines) p = some out)
    (hw : grid.w = mines.w) (hh : grid.h = mines.h)
    (hin : mines.inb p.x p.y = true) (hdelta : p.delta = 1 ∨ p.delta = -1)
    (hcons : consistentP grid mines) : consistentP out.1 out.2 := by
  obtain ⟨hg, hm2, hg2⟩ := applyOne_some_parts grid mines p out h
  have hdims := applyOne_grid_dims grid mines p out h
  intro x y hinb hge2
  have hgin : grid.inb x y = true := by
    rw [inb_congr grid out.1 hdims.1.symm hdims.2.symm]
    exact hinb
  by_cases hnear : (x - p.x).natAbs ≤ 1 ∧ (y - p.y).natAbs ≤ 1
  case neg =>
    have hval : out.1.get x y = grid.get x y := by
      rw [hg2]
      exact applyOne_grid_far _ p grid x y hnear
    have hold := hcons x y hgin (by rw [← hval]; exact hge2)
    have hnmc : neighborMineCount out.2 x y = neighborMineCount mines x y := by
      rw [hm2]
      exact nmc_setc_far mines p.x p.y x y _ (Or.inl (by omega))
    rw [hval, hold, hnmc]
  case pos =>
    have hval : out.1.get x y
        = (pertStep (mines.setc p.x p.y (p.delta = 1)) p grid (x - p.x, y - p.y)).get x y := by
      rw [hg2]
      exact applyOne_grid_near _ p grid x y hnear
    rw [pertStep_eval] at hval
    by_cases hu : grid.get x y = Unknown
    · rw [if_neg (by simp [hu])] at hval
      rw [hval, hu] at hge2
      exact absurd hge2 (by unfold Unknown; omega)
    · have hcond : (grid.inb x y && decide (grid.get x y ≠ Unknown)) = true := by
        rw [hgin]
        simp [hu]
      rw [if_pos hcond] at hval
      by_cases hcen : x = p.x ∧ y = p.y
      · rw [if_pos hcen] at hval
        obtain ⟨e1, e2⟩ := hcen
        subst e1
        subst e2
        rcases hdelta with hd | hd
        · rw [if_pos hd] at hval
          rw [hval] at hge2
          exact absurd hge2 (by unfold MarkedAsMine; omega)
        · rw [if_neg (by omega)] at hval
          have hmf : out.2.get p.x p.y = false := by
            rw [hm2, get_setc_self, hd]
            decide
          rw [← hm2] at hval
          have hcnt := block_filter_eq_nmc grid out.2 p.x p.y
            (by rw [hm2, setc_w]; exact hw) (by rw [hm2, setc_h]; exact hh) hmf
          rw [hval, hcnt]
      · rw [if_neg hcen] at hval
        by_cases hge : grid.get x y ≥ 0
        · rw [if_pos hge] at hval
          have hold := hcons x y hgin hge
          have hadj : (p.x - x).natAbs ≤ 1 ∧ (p.y - y).natAbs ≤ 1 ∧ ¬ (p.x = x ∧ p.y = y) := by
            refine ⟨by omega, by omega, ?_⟩
            intro hcc
            exact hcen ⟨hcc.1.symm, hcc.2.symm⟩
          have hnm := nmc_setc_adj mines p.x p.y x y (decide (p.delta = 1)) hin hadj
          rw [← hm2] at hnm
          rw [hval]
          rcases hdelta with hd | hd
          · have hgp : mines.get p.x p.y = false := by
              rw [← hg, hd]
              decide
            rw [hgp, hd] at hnm
            simp at hnm
            rw [hold, hd]
            omega
          · have hgp : mines.get p.x p.y = true := by
              rw [← hg, hd]
              decide
            rw [hgp, hd] at hnm
            simp at hnm
            rw [hold, hd]
            omega
        · rw [if_neg hge] at hval
          rw [hval] at hge2
          exact absurd hge2 hge

theorem applyOne_unknown_iff (grid : Grid Int) (mines : Grid Bool) (p : Perturbation)
    (out : Grid Int × Grid Bool) (h : applyOne (grid, mines) p = some out)
    (hdelta : p.delta = 1 ∨ p.delta = -1) (x y : Int) :
    out.1.get x y = Unknown ↔ grid.get x y = Unknown := by
  obtain ⟨hg, hm2, hg2⟩ := applyOne_some_parts grid mines p out h
  by_cases hnear : (x - p.x).natAbs ≤ 1 ∧ (y - p.y).natAbs ≤ 1
  case neg =>
    rw [hg2, applyOne_grid_far _ p grid x y hnear]
  case pos =>
    have hval : out.1.get x y
        = (pertStep (mines.setc p.x p.y (p.delta = 1)) p grid (x - p.x, y - p.y)).get x y := by
      rw [hg2]
      exact applyOne_grid_near _ p grid x y hnear
    rw [pertStep_eval] at hval
    by_cases hu : grid.get x y = Unknown
    · rw [if_neg (by simp [hu])] at hval
      rw [hval]
    · by_cases hinb : grid.inb x y = true
      · have hcond : (grid.inb x y && decide (grid.get x y ≠ Unknown)) = true := by
          rw [hinb]
          simp [hu]
        rw [if_pos hcond] at hval
        by_cases hcen : x = p.x ∧ y = p.y
        · rw [if_pos hcen] at hval
          rcases hdelta with hd | hd
          · rw [if_pos hd] at hval
            rw [hval]
            unfold MarkedAsMine Unknown
            constructor
            · intro hc
              omega
            · intro hc
              exact absurd hc hu
          · rw [if_neg (by omega)] at hval
            rw [hval]
            constructor
            · intro hc
              have := Int.natCast_nonneg
                ((blockOffsets.filter (fun d2 => grid.inb (p.x + d2.1) (p.y + d2.2)
                  && (mines.setc p.x p.y (p.delta = 1)).get (p.x + d2.1) (p.y + d2.2))).length)
              rw [hc] at this
              exact absurd this (by unfold Unknown; omega)
            · intro hc
              exact absurd hc hu
        · rw [if_neg hcen] at hval
          by_cases hge : grid.get x y ≥ 0
          · rw [if_pos hge] at hval
            rw [hval]
            constructor
            · intro hc
              rcases hdelta with hd | hd <;> (rw [hd] at hc; unfold Unknown at hc; omega)
            · intro hc
              exact absurd hc hu
          · rw [if_neg hge] at hval
            rw [hval]
      · have hcond : (grid.inb x y && decide (grid.get x y ≠ Unknown)) = false := by
          rw [Bool.not_eq_true] at hinb
          rw [hinb, Bool.false_and]
        rw [if_neg (by rw [hcond]; simp)] at hval
        rw [hval]

theorem applyChanges_spec : ∀ (ps : List Perturbation) (grid : Grid Int) (mines : Grid Bool)
    (out : Grid Int × Grid Bool),
    applyChanges grid mines ps = some out →
    grid.w = mines.w → grid.h = mines.h →
    (∀ p ∈ ps, mines.inb p.x p.y = true ∧ (p.delta = 1 ∨ p.delta = -1)) →
    (out.1.w = grid.w ∧ out.1.h = grid.h ∧ out.2.w = mines.w ∧ out.2.h = mines.h)
    ∧ (∀ x y : Int, (∀ p ∈ ps, ¬ (p.x = x ∧ p.y = y)) → out.2.get x y = mines.get x y)
    ∧ (out.2.countP (fun b => b) + ps.countP (fun p => p.delta = -1)
        = mines.countP (fun b => b) + ps.countP (fun p => p.delta = 1))
    ∧ (truthP grid mines → truthP out.1 out.2)
    ∧ (consistentP grid mines → consistentP out.1 out.2)
    ∧ (∀ x y : Int, out.1.get x y = Unknown ↔ grid.get x y = Unknown) := by
  intro ps
  induction ps with
  | nil =>
    intro grid mines out h _ _ _
    have hout : out = (grid, mines) := by
      unfold applyChanges at h
      exact (Option.some.inj h).symm
    subst hout
    refine ⟨⟨rfl, rfl, rfl, rfl⟩, fun x y _ => rfl, by simp, fun h => h, fun h => h,
      fun x y => Iff.rfl⟩
  | cons p ps ih =>
    intro grid mines out h hw hh hps
    unfold applyChanges at h
    rw [List.foldlM_cons] at h
    cases hstep : applyOne (grid, mines) p with
    | none =>
      rw [hstep] at h
      exact absurd h (by simp)
    | some gm =>
      rw [hstep] at h
      have hrest : applyChanges gm.1 gm.2 ps = some out := h
      obtain ⟨hgp, hdp⟩ := hps p (List.mem_cons_self _ _)
      obtain ⟨hguard, hm2, hg2⟩ := applyOne_some_parts grid mines p gm hstep
      have hdims := applyOne_grid_dims grid mines p gm hstep
      have hmw : gm.2.w = mines.w := by rw [hm2, setc_w]
      have hmh : gm.2.h = mines.h := by rw [hm2, setc_h]
      have hw2 : gm.1.w = gm.2.w := by rw [hdims.1, hmw, hw]
      have hh2 : gm.1.h = gm.2.h := by rw [hdims.2, hmh, hh]
      have hinb2 : ∀ a b : Int, gm.2.inb a b = mines.inb a b := by
        intro a b
        exact inb_congr _ _ hmw hmh a b
      have hps2 : ∀ q ∈ ps, gm.2.inb q.x q.y = true ∧ (q.delta = 1 ∨ q.delta = -1) := by
        intro q hq
        obtain ⟨h1, h2⟩ := hps q (List.mem_cons_of_mem _ hq)
        exact ⟨by rw [hinb2]; exact h1, h2⟩
      obtain ⟨ihdims, ihoff, ihcount, ihtruth, ihcons, ihunk⟩ :=
        ih gm.1 gm.2 out hrest hw2 hh2 hps2
      refine ⟨⟨by rw [ihdims.1, hdims.1], by rw [ihdims.2.1, hdims.2],
        by rw [ihdims.2.2.1, hmw], by rw [ihdims.2.2.2, hmh]⟩, ?_, ?_, ?_, ?_, ?_⟩
      · intro x y hav
        rw [ihoff x y (fun q hq => hav q (List.mem_cons_of_mem _ hq))]
        exact applyOne_mines_off grid mines p gm hstep x y
          (fun hc => hav p (List.mem_cons_self _ _) ⟨hc.1.symm, hc.2.symm⟩)
      · have hcnt := applyOne_count grid mines p gm hstep hgp hdp
        rw [List.countP_cons, List.countP_cons]
        have e1 : (if (fun q : Perturbation => decide (q.delta = -1)) p = true then 1 else 0)
            = (if p.delta = -1 then 1 else 0) := by
          by_cases hd : p.delta = -1 <;> simp [hd]
        have e2 : (if (fun q : Perturbation => decide (q.delta = 1)) p = true then 1 else 0)
            = (if p.delta = 1 then 1 else 0) := by
          by_cases hd : p.delta = 1 <;> simp [hd]
        rw [e1, e2]
        omega
      · intro htr
        exact ihtruth (applyOne_truth grid mines p gm hstep hw hh hgp hdp htr)
      · intro hcons
        exact ihcons (applyOne_consistent grid mines p gm hstep hw hh hgp hdp hcons)
      · intro x y
        rw [ihunk x y]
        exact applyOne_unknown_iff grid mines p gm hstep hdp x y

/-! ## Membership facts for the perturbator candidate lists -/

theorem insertPS_perm (a : PerturbSquare) (l : List PerturbSquare) :
    (insertPS a l).Perm (a :: l) := by
  induction l with
  | nil => exact List.Perm.refl _
  | cons b rest ih =>
    show (if psLe a b then a :: b :: rest else b :: insertPS a rest).Perm _
    by_cases h : psLe a b
    · rw [if_pos h]
    · rw [if_neg h]
      exact List.Perm.trans (List.Perm.cons b ih) (List.Perm.swap a b rest)

theorem sortPS_perm (l : List PerturbSquare) : (sortPS l).Perm l := by
  induction l with
  | nil => exact List.Perm.refl _
  | cons a rest ih =>
    show (insertPS a (sortPS rest)).Perm _
    exact List.Perm.trans (insertPS_perm a (sortPS rest)) (List.Perm.cons a ih)

theorem selectSquares_cons (mines : Grid Bool) (nfull nempty : Nat) (sq : PerturbSquare)
    (rest tofill toempty : List PerturbSquare) :
    selectSquares mines nfull nempty (sq :: rest) tofill toempty
      = (if (if mines.get sq.x sq.y then tofill else tofill ++ [sq]).length = nfull
            ∨ (if mines.get sq.x sq.y then toempty ++ [sq] else toempty).length = nempty
         then (if mines.get sq.x sq.y then tofill else tofill ++ [sq],
               if mines.get sq.x sq.y then toempty ++ [sq] else toempty)
         else selectSquares mines nfull nempty rest
            (if mines.get sq.x sq.y then tofill else tofill ++ [sq])
            (if mines.get sq.x sq.y then toempty ++ [sq] else toempty)) := rfl

theorem selectSquares_sub (mines : Grid Bool) (nfull nempty : Nat) :
    ∀ (l tf te : List PerturbSquare) (q : PerturbSquare),
      (q ∈ (selectSquares mines nfull nempty l tf te).1
        ∨ q ∈ (selectSquares mines nfull nempty l tf te).2) →
      q ∈ l ∨ q ∈ tf ∨ q ∈ te := by
  intro l
  induction l with
  | nil =>
    intro tf te q hq
    unfold selectSquares at hq
    tauto
  | cons sq rest ih =>
    intro tf te q hq
    rw [selectSquares_cons] at hq
    have hstep : ∀ (tf2 te2 : List PerturbSquare),
        (tf2 = tf ∨ tf2 = tf ++ [sq]) → (te2 = te ∨ te2 = te ++ [sq]) →
        (q ∈ tf2 ∨ q ∈ te2) → q ∈ sq :: rest ∨ q ∈ tf ∨ q ∈ te := by
      intro tf2 te2 htf hte hmem
      rcases hmem with hm | hm <;> rcases htf with rfl | rfl <;> rcases hte with rfl | rfl <;>
        first
          | exact Or.inr (Or.inl hm)
          | exact Or.inr (Or.inr hm)
          | (rcases List.mem_append.mp hm with hm2 | hm2
             · tauto
             · exact Or.inl (by
                 rw [List.mem_singleton] at hm2
                 rw [hm2]
                 exact List.mem_cons_self _ _))
    by_cases hm : mines.get sq.x sq.y = true
    · rw [hm] at hq
      simp only [if_true] at hq
      split at hq
      · exact hstep tf (te ++ [sq]) (Or.inl rfl) (Or.inr rfl) hq
      · have := ih tf (te ++ [sq]) q hq
        rcases this with h2 | h2 | h2
        · exact Or.inl (List.mem_cons_of_mem _ h2)
        · exact Or.inr (Or.inl h2)
        · exact hstep tf (te ++ [sq]) (Or.inl rfl) (Or.inr rfl) (Or.inr h2)
    · rw [Bool.not_eq_true] at hm
      rw [hm] at hq
      simp only [Bool.false_eq_true, if_false] at hq
      split at hq
      · exact hstep (tf ++ [sq]) te (Or.inr rfl) (Or.inl rfl) hq
      · have := ih (tf ++ [sq]) te q hq
        rcases this with h2 | h2 | h2
        · exact Or.inl (List.mem_cons_of_mem _ h2)
        · exact hstep (tf ++ [sq]) te (Or.inr rfl) (Or.inl rfl) (Or.inl h2)
        · exact Or.inr (Or.inr h2)

theorem buildSquarelist_mem (sx sy : Int) (grid : Grid Int) (mines : Grid Bool)
    (setx sety : Int) (mask : Nat) (st : Nat) (q : PerturbSquare)
    (hq : q ∈ (buildSquarelist sx sy grid mines setx sety mask st).1) :
    grid.inb q.x q.y = true := by
  unfold buildSquarelist at hq
  simp only [List.mem_append] at hq
  have hsorted : ∀ (p2 : PerturbSquare → Bool) (st2 : Nat) (q2 : PerturbSquare),
      q2 ∈ (shuffleList ((sortPS ((gridPoints grid.w grid.h).filterMap (fun c =>
        if (c.2 - sy).natAbs ≤ 1 ∧ (c.1 - sx).natAbs ≤ 1 then none
        else if (mask = 0 ∧ grid.get c.1 c.2 = Unknown)
            ∨ (setx ≤ c.1 ∧ c.1 < setx + 3 ∧ sety ≤ c.2 ∧ c.2 < sety + 3
                ∧ mask &&& (1 <<< ((c.2 - sety).toNat * 3 + (c.1 - setx).toNat)) ≠ 0) then none
        else if grid.get c.1 c.2 ≠ Unknown then some ⟨3, c.1, c.2⟩
        else if blockOffsets.any (fun d =>
            grid.inb (c.1 + d.1) (c.2 + d.2) && grid.get (c.1 + d.1) (c.2 + d.2) ≠ Unknown) then
          some ⟨1, c.1, c.2⟩
        else some ⟨2, c.1, c.2⟩))).filter p2) st2).1 →
      grid.inb q2.x q2.y = true := by
    intro p2 st2 q2 hq2
    have h1 := (shuffleList_perm _ _).mem_iff.mp hq2
    have h2 := (List.mem_filter.mp h1).1
    have h3 := (sortPS_perm _).mem_iff.mp h2
    rw [List.mem_filterMap] at h3
    obtain ⟨c, hc, hsome⟩ := h3
    have hcinb : grid.inb c.1 c.2 = true := by
      rw [inb_iff_mem]
      obtain ⟨c1, c2⟩ := c
      exact hc
    split at hsome
    · exact absurd hsome (by simp)
    · split at hsome
      · exact absurd hsome (by simp)
      · split at hsome
        · rw [Option.some.injEq] at hsome
          rw [← hsome]
          exact hcinb
        · split at hsome <;>
            (rw [Option.some.injEq] at hsome
             rw [← hsome]
             exact hcinb)
  rcases hq with hq1 | hq1
  · rcases hq1 with hq2 | hq2
    · exact hsorted _ _ q hq2
    · exact hsorted _ _ q hq2
  · exact hsorted _ _ q hq1

theorem fillFold_mem (grid : Grid Int) (mines : Grid Bool) (inputset : SquareSet) :
    ∀ (fs : List (Nat × Int × Int)) (acc res : List (Int × Int)),
      fs.foldlM (fun acc f =>
        if inputset.mask.testBit f.1 then
          if inputset.x + f.2.1 ≤ (grid.w : Int) ∧ inputset.y + f.2.2 ≤ (grid.h : Int) then
            if mines.get (inputset.x + f.2.1) (inputset.y + f.2.2) then some acc
            else some (acc ++ [(inputset.x + f.2.1, inputset.y + f.2.2)])
          else none
        else some acc) acc = some res →
      ∀ c ∈ res, c ∈ acc ∨ ∃ f ∈ fs, inputset.mask.testBit f.1 = true
        ∧ c = (inputset.x + f.2.1, inputset.y + f.2.2) := by
  intro fs
  induction fs with
  | nil =>
    intro acc res h c hc
    rw [List.foldlM_nil] at h
    left
    have : acc = res := Option.some.inj h
    rwa [this]
  | cons f fs ih =>
    intro acc res h c hc
    rw [List.foldlM_cons] at h
    obtain ⟨acc2, hstep, hrest⟩ := Option.bind_eq_some.mp h
    have hnext : c ∈ acc2 ∨ ∃ f2 ∈ fs, inputset.mask.testBit f2.1 = true
        ∧ c = (inputset.x + f2.2.1, inputset.y + f2.2.2) := ih acc2 res hrest c hc
    rcases hnext with hin | ⟨f2, hf2, hb, hcc⟩
    · split at hstep
      next htb =>
        split at hstep
        · split at hstep
          · left
            rw [Option.some.inj hstep]
            exact hin
          · have hacc2 : acc2 = acc ++ [(inputset.x + f.2.1, inputset.y + f.2.2)] :=
              (Option.some.inj hstep).symm
            rw [hacc2, List.mem_append] at hin
            rcases hin with hin | hin
            · exact Or.inl hin
            · rw [List.mem_singleton] at hin
              exact Or.inr ⟨f, List.mem_cons_self _ _, by simpa using htb, hin⟩
        · exact absurd hstep (by simp)
      next htb =>
        left
        rw [Option.some.inj hstep]
        exact hin
    · exact Or.inr ⟨f2, List.mem_cons_of_mem _ hf2, hb, hcc⟩

theorem buildFillList_mem (grid : Grid Int) (mines : Grid Bool) (inputset : SquareSet)
    (size st : Nat) (out : List (Int × Int) × Nat)
    (h : buildFillList grid mines inputset size st = some out)
    (c : Int × Int) (hc : c ∈ out.1) :
    (inputset.mask ≠ 0 ∧ ∃ f ∈ flagOffsets, inputset.mask.testBit f.1 = true
        ∧ c = (inputset.x + f.2.1, inputset.y + f.2.2))
    ∨ (c.1, c.2) ∈ gridPoints grid.w grid.h := by
  unfold buildFillList at h
  split at h
  · exact absurd h (by simp)
  · simp only [] at h
    by_cases hmask : inputset.mask ≠ 0
    case pos =>
      rw [if_pos hmask] at h
      obtain ⟨base, hbase, hrest⟩ := Option.bind_eq_some.mp h
      split at hrest
      next hlen =>
        have hout : out = ((shuffleList base st).1.take size, (shuffleList base st).2) :=
          (Option.some.inj hrest).symm
        have hcb : c ∈ base := by
          apply (shuffleList_perm base st).mem_iff.mp
          apply List.mem_of_mem_take
          rw [hout] at hc
          exact hc
        have := fillFold_mem grid mines inputset flagOffsets [] base hbase c hcb
        rcases this with h2 | h2
        · exact absurd h2 (List.not_mem_nil c)
        · exact Or.inl ⟨hmask, h2⟩
      next hlen => exact absurd hrest (by simp)
    case neg =>
      rw [if_neg hmask] at h
      obtain ⟨base, hbase, hrest⟩ := Option.bind_eq_some.mp h
      split at hrest
      next hlen =>
        have hout : out = ((shuffleList base st).1.take size, (shuffleList base st).2) :=
          (Option.some.inj hrest).symm
        have hcb : c ∈ base := by
          apply (shuffleList_perm base st).mem_iff.mp
          apply List.mem_of_mem_take
          rw [hout] at hc
          exact hc
        have hb2 : ((gridPoints grid.w grid.h).filter (fun c2 =>
            grid.get c2.1 c2.2 = Unknown && !(mines.get c2.1 c2.2))) = base :=
          Option.some.inj hbase
        rw [← hb2] at hcb
        right
        obtain ⟨c1, c2⟩ := c
        exact (List.mem_filter.mp hcb).1
      next hlen => exact absurd hrest (by simp)

theorem countP_const_delta (cv dv : Int) (l : List Perturbation)
    (hall : ∀ p ∈ l, p.delta = cv) :
    l.countP (fun p => p.delta = dv) = if cv = dv then l.length else 0 := by
  induction l with
  | nil => simp
  | cons p rest ih =>
    rw [List.countP_cons]
    have hp := hall p (List.mem_cons_self _ _)
    have hr := ih (fun q hq => hall q (List.mem_cons_of_mem _ hq))
    rw [hr]
    by_cases hcd : cv = dv
    · rw [if_pos hcd, if_pos hcd]
      have : (decide (p.delta = dv)) = true := by
        rw [hp, hcd]
        simp
      rw [this]
      simp
    · rw [if_neg hcd, if_neg hcd]
      have : (decide (p.delta = dv)) = false := by
        rw [hp]
        simpa using hcd
      rw [this]
      simp

/-! ## Helper lemmas for the intersection laws -/

theorem inter_far_zero (a b : SquareSet)
    (hfar : 3 ≤ (a.x - b.x).natAbs ∨ 3 ≤ (a.y - b.y).natAbs) :
    (a.inter b).mask = 0 := by
  show a.mask &&& (SquareSet.reanchor a.x a.y b).mask = 0
  have hre : (SquareSet.reanchor a.x a.y b).mask = 0 := by
    unfold SquareSet.reanchor
    have hc : 3 ≤ (b.x - a.x).natAbs ∨ 3 ≤ (b.y - a.y).natAbs := by omega
    simp [hc]
  rw [hre, Nat.and_zero]

theorem inter_ne_zero_symm (a b : SquareSet) (ha : a.mask < 512) (hb : b.mask < 512) :
    (a.inter b).mask ≠ 0 ↔ (b.inter a).mask ≠ 0 := by
  rw [mask_ne_zero_iff _ (inter_mask_lt a b ha), mask_ne_zero_iff _ (inter_mask_lt b a hb)]
  constructor
  · rintro ⟨px, py, h⟩
    refine ⟨px, py, ?_⟩
    rw [inter_containsSq a b hb] at h
    rw [inter_containsSq b a ha]
    rw [Bool.and_comm]
    exact h
  · rintro ⟨px, py, h⟩
    refine ⟨px, py, ?_⟩
    rw [inter_containsSq b a ha] at h
    rw [inter_containsSq a b hb]
    rw [Bool.and_comm]
    exact h

/-! ## Claim theorems: SquareSet layer -/

/-- C10: for every 16-bit word, `popcount` returns exactly the number of bit
positions 0..15 holding a 1; consequently `SquareSetMask::count()` equals the
cardinality of the square set denoted by a (9-bit) mask. -/
theorem C10_popcount_count :
    (∀ w : Nat, w < 65536 →
      popcount w = ((List.range 16).filter (fun i => w.testBit i)).length) ∧
    (∀ s : SquareSet, s.mask < 512 → maskCount s.mask = (squaresList s).length) := by
  constructor
  · intro w hw
    rw [popcount_eq_bitcount w hw, bitcount_eq_filter_length]
  · intro s hs
    exact (squaresList_length s hs).symm

/-- Witness for C10 at the word 0xBEEF and a concrete square set. -/
theorem C10_witness :
    (0xBEEF : Nat) < 65536 ∧ popcount 0xBEEF = 13 ∧
    (⟨4, -2, 0x1B5⟩ : SquareSet).mask < 512 ∧ maskCount 0x1B5 = 6 := by
  refine ⟨by norm_num, ?_, by norm_num, ?_⟩
  · have h := C10_popcount_count.1 0xBEEF (by norm_num)
    rw [h]
    rfl
  · have h := C10_popcount_count.2 ⟨4, -2, 0x1B5⟩ (by norm_num)
    rw [h]
    rfl

/-- C8: normalization is idempotent; it is the identity on empty masks; and
on a non-empty (9-bit) mask the result has a square in the left column and
one in the top row while denoting the same set of absolute squares. -/
theorem C8_normalize (s : SquareSet) (hm : s.mask < 512) :
    s.normalize.normalize = s.normalize ∧
    (s.mask = 0 → s.normalize = s) ∧
    (s.mask ≠ 0 →
      s.normalize.mask &&& LEFT_COLUMN ≠ 0 ∧ s.normalize.mask &&& TOP_ROW ≠ 0 ∧
      ∀ px py : Int, s.normalize.containsSq px py = s.containsSq px py) := by
  refine ⟨normalize_idem s hm, normalize_zero s, ?_⟩
  intro h0
  obtain ⟨h1, h2, h3, h4, h5⟩ := normalize_spec s hm h0
  exact ⟨h3, h4, h5⟩

/-- Witness for C8 at the set anchored at (7, -3) with mask 0x130
(squares in the center and bottom-right region). -/
theorem C8_witness :
    (⟨7, -3, 0x130⟩ : SquareSet).mask < 512 ∧
    (⟨7, -3, 0x130⟩ : SquareSet).normalize = ⟨8, -2, 0x013⟩ ∧
    (⟨7, -3, 0x130⟩ : SquareSet).normalize.normalize = (⟨7, -3, 0x130⟩ : SquareSet).normalize ∧
    0x013 &&& LEFT_COLUMN ≠ 0 ∧ 0x013 &&& TOP_ROW ≠ 0 := by
  have h := C8_normalize ⟨7, -3, 0x130⟩ (by norm_num)
  refine ⟨by norm_num, by decide, h.1, by decide, by decide⟩

/-- C9: the intersection is contained in the left operand; difference and
intersection with the same set are disjoint; difference and intersection
partition the left operand; and sets whose anchors are 3 or more apart on
either axis have empty intersection. -/
theorem C9_inter_sdiff (a b : SquareSet) (ha : a.mask < 512) (hb : b.mask < 512) :
    (∀ px py : Int, (a.inter b).containsSq px py = true → a.containsSq px py = true) ∧
    ((a.sdiff b).inter b).mask = 0 ∧
    (∀ px py : Int, a.containsSq px py = true ↔
      ((a.sdiff b).containsSq px py = true ∨ (a.inter b).containsSq px py = true)) ∧
    (3 ≤ (a.x - b.x).natAbs ∨ 3 ≤ (a.y - b.y).natAbs → (a.inter b).mask = 0) := by
  refine ⟨?_, ?_, ?_, inter_far_zero a b⟩
  · intro px py h
    rw [inter_containsSq a b hb, Bool.and_eq_true] at h
    exact h.1
  · by_contra hne
    have hlt : ((a.sdiff b).inter b).mask < 512 :=
      inter_mask_lt _ b (sdiff_mask_lt a b ha)
    obtain ⟨px, py, hc⟩ := (mask_ne_zero_iff _ hlt).mp hne
    rw [inter_containsSq _ b hb, Bool.and_eq_true] at hc
    have hd := hc.1
    rw [sdiff_containsSq a b hb, Bool.and_eq_true] at hd
    rw [hc.2] at hd
    simp at hd
  · intro px py
    rw [sdiff_containsSq a b hb, inter_containsSq a b hb]
    cases hA : a.containsSq px py <;> cases hB : b.containsSq px py <;> simp

/-- Witness for C9 at two concrete overlapping sets. -/
theorem C9_witness :
    (⟨2, 2, 0x1FF⟩ : SquareSet).mask < 512 ∧ (⟨3, 3, 0x01B⟩ : SquareSet).mask < 512 ∧
    ((⟨2, 2, 0x1FF⟩ : SquareSet).inter ⟨3, 3, 0x01B⟩).mask = 0x1B0 ∧
    (((⟨2, 2, 0x1FF⟩ : SquareSet).sdiff ⟨3, 3, 0x01B⟩).inter ⟨3, 3, 0x01B⟩).mask = 0 ∧
    ((⟨2, 2, 0x1FF⟩ : SquareSet).inter ⟨30, 3, 0x01B⟩).mask = 0 := by
  have h := C9_inter_sdiff ⟨2, 2, 0x1FF⟩ ⟨3, 3, 0x01B⟩ (by norm_num) (by norm_num)
  refine ⟨by norm_num, by norm_num, by decide, h.2.1, ?_⟩
  have h2 := C9_inter_sdiff ⟨2, 2, 0x1FF⟩ ⟨30, 3, 0x01B⟩ (by norm_num) (by norm_num)
  exact h2.2.2.2 (by left; decide)

/-! ## Claim theorems: SetStore layer -/

theorem insertSorted_perm (e : SSElem) (l : List SSElem) :
    (insertSorted e l).Perm (e :: l) := by
  induction l with
  | nil => exact List.Perm.refl _
  | cons e2 rest ih =>
    show (if ssLt e.key e2.key then e :: e2 :: rest else e2 :: insertSorted e rest).Perm _
    by_cases h : ssLt e.key e2.key
    · rw [if_pos h]
    · rw [if_neg h]
      exact List.Perm.trans (List.Perm.cons e2 ih) (List.Perm.swap e e2 rest)

theorem add_existing (ss : SetStore) (x y : Int) (mask : Nat) (m : Int)
    (h : ∃ e ∈ ss.elems, e.key = SquareSet.normalize ⟨x, y, mask⟩) :
    ss.add x y mask m = ss := by
  unfold SetStore.add
  have hany : ss.elems.any (fun e => e.key = SquareSet.normalize ⟨x, y, mask⟩) = true := by
    rw [List.any_eq_true]
    obtain ⟨e, he, hk⟩ := h
    exact ⟨e, he, by simp [hk]⟩
  simp only [hany, if_true]

theorem add_new_spec (ss : SetStore) (x y : Int) (mask : Nat) (m : Int)
    (hfresh : ∀ e ∈ ss.elems, e.key ≠ SquareSet.normalize ⟨x, y, mask⟩) :
    ((ss.add x y mask m).elems.filter
        (fun e => e.key = SquareSet.normalize ⟨x, y, mask⟩)).map (fun e => e.mines) = [m]
    ∧ ∃ e ∈ (ss.add x y mask m).elems, e.key = SquareSet.normalize ⟨x, y, mask⟩ := by
  set k := SquareSet.normalize ⟨x, y, mask⟩ with hkdef
  unfold SetStore.add
  have hany : ss.elems.any (fun e => e.key = k) = false := by
    rw [List.any_eq_false]
    intro e he
    simp [hfresh e he]
  simp only [hany, Bool.false_eq_true, if_false]
  set newe : SSElem := ⟨k, m, false⟩ with hnewe
  have hperm : (insertSorted newe ss.elems).Perm (newe :: ss.elems) := insertSorted_perm _ _
  have hmem : newe ∈ insertSorted newe ss.elems := hperm.mem_iff.mpr (List.mem_cons_self _ _)
  have honly : ∀ e ∈ insertSorted newe ss.elems, e.key = k → e = newe := by
    intro e he hk
    rcases List.mem_cons.mp (hperm.mem_iff.mp he) with h | h
    · exact h
    · exact absurd hk (hfresh e h)
  -- the addTodoKey step
  unfold SetStore.addTodoKey
  have hfind : (insertSorted newe ss.elems).find? (fun e => e.key = k) = some newe := by
    cases hf : (insertSorted newe ss.elems).find? (fun e => e.key = k) with
    | none =>
      exfalso
      have := List.find?_eq_none.mp hf newe hmem
      simp at this
    | some e =>
      have h1 := List.find?_some hf
      have h2 := List.mem_of_find?_eq_some hf
      simp only [decide_eq_true_eq] at h1
      rw [honly e h2 h1]
  simp only [hfind]
  simp only [Bool.false_eq_true, if_false]
  constructor
  · have hfm : ∀ (l : List SSElem),
        (l.map (fun e2 => if e2.key = k then { e2 with todo := true } else e2)).filter
          (fun e => e.key = k)
        = (l.filter (fun e => e.key = k)).map
            (fun e2 => if e2.key = k then { e2 with todo := true } else e2) := by
      intro l
      rw [List.filter_map]
      congr 1
      apply List.filter_congr
      intro e _
      by_cases h : e.key = k <;> simp [h]
    show ((List.map _ (insertSorted newe ss.elems)).filter _).map _ = [m]
    rw [hfm]
    have hfilter : (insertSorted newe ss.elems).filter (fun e => e.key = k) = [newe] := by
      have hp2 : ((insertSorted newe ss.elems).filter (fun e => e.key = k)).Perm
          ((newe :: ss.elems).filter (fun e => e.key = k)) := hperm.filter _
      have hrest : ss.elems.filter (fun e => e.key = k) = [] := by
        rw [List.filter_eq_nil]
        intro e he
        simp [hfresh e he]
      have hcons : (newe :: ss.elems).filter (fun e => e.key = k) = [newe] := by
        rw [List.filter_cons]
        simp [hrest]
      rw [hcons] at hp2
      exact List.Perm.eq_singleton hp2
    rw [hfilter]
    simp
  · refine ⟨{ newe with todo := true }, ?_, rfl⟩
    rw [List.mem_map]
    exact ⟨newe, hmem, by simp⟩

/-- C5 (amended): a sequence of `add` calls whose sets normalize to the same
key, applied to a store not yet holding that key, leaves exactly one element
for the key whose mine count is the first inserted value; every later add
with that key is a no-op (regardless of its mine count — `SetStore::add`
performs no consistency check). -/
theorem C5_setstore_canonical (x y : Int) (mask : Nat) (m : Int)
    (rest : List (Int × Int × Nat × Int)) (ss0 : SetStore)
    (hkeys : ∀ a ∈ rest, SquareSet.normalize ⟨a.1, a.2.1, a.2.2.1⟩
        = SquareSet.normalize ⟨x, y, mask⟩)
    (hfresh : ∀ e ∈ ss0.elems, e.key ≠ SquareSet.normalize ⟨x, y, mask⟩) :
    (rest.foldl (fun ss a => ss.add a.1 a.2.1 a.2.2.1 a.2.2.2) (ss0.add x y mask m)
      = ss0.add x y mask m) ∧
    (((ss0.add x y mask m).elems.filter
        (fun e => e.key = SquareSet.normalize ⟨x, y, mask⟩)).map (fun e => e.mines) = [m]) := by
  obtain ⟨hfilter, hmem⟩ := add_new_spec ss0 x y mask m hfresh
  refine ⟨?_, hfilter⟩
  induction rest with
  | nil => rfl
  | cons a rest ih =>
    show (rest.foldl _ ((ss0.add x y mask m).add a.1 a.2.1 a.2.2.1 a.2.2.2)) = _
    have hnoop : (ss0.add x y mask m).add a.1 a.2.1 a.2.2.1 a.2.2.2 = ss0.add x y mask m := by
      apply add_existing
      rw [hkeys a (List.mem_cons_self _ _)]
      exact hmem
    rw [hnoop]
    exact ih (fun b hb => hkeys b (List.mem_cons_of_mem _ hb))

/-- Witness for C5: first add of the set `{(0,0), (1,0)}` with count 2 on the
empty store, then a re-add of the same set written with anchor `(-1, 0)` and
the inconsistent count 99: the store keeps one element with count 2. -/
theorem C5_witness :
    (∀ a ∈ [((-1 : Int), (0 : Int), (6 : Nat), (99 : Int))],
        SquareSet.normalize ⟨a.1, a.2.1, a.2.2.1⟩ = SquareSet.normalize ⟨0, 0, 3⟩) ∧
    (∀ e ∈ SetStore.empty.elems, e.key ≠ SquareSet.normalize ⟨0, 0, 3⟩) ∧
    ([((-1 : Int), (0 : Int), (6 : Nat), (99 : Int))].foldl
        (fun ss a => ss.add a.1 a.2.1 a.2.2.1 a.2.2.2) (SetStore.empty.add 0 0 3 2)
      = SetStore.empty.add 0 0 3 2) ∧
    (((SetStore.empty.add 0 0 3 2).elems.filter
        (fun e => e.key = SquareSet.normalize ⟨0, 0, 3⟩)).map (fun e => e.mines) = [2]) := by
  have h := C5_setstore_canonical 0 0 3 2 [(-1, 0, 6, 99)] SetStore.empty
    (by decide) (by decide)
  exact ⟨by decide, by decide, h.1, h.2⟩

/-- C5 counterexample: the claim states that a later `add` with the same
normalized key but a different, inconsistent mine count is a fatal assertion
failure.  `SetStore::add` (solver.cpp) contains no assertion: the
inconsistent re-add returns normally and is a silent no-op that keeps the
first count. -/
theorem C5_counterexample :
    (SetStore.empty.add 0 0 1 0).add 0 0 1 5 = SetStore.empty.add 0 0 1 0 ∧
    ((SetStore.empty.add 0 0 1 0).add 0 0 1 5).elems.map (fun e => e.mines) = [0] := by
  decide

/-- Characterization of `SetStore::overlapping_sets`: completeness and
soundness of the 5x5 anchor scan, for 9-bit masks. -/
theorem overlap_spec (ss : SetStore) (s1 : SquareSet) (hs1 : s1.mask < 512)
    (hstore : ∀ e ∈ ss.elems, e.key.mask < 512) :
    (∀ e ∈ ss.elems, (s1.inter e.key).mask ≠ 0 →
        e ∈ ss.overlap s1.x s1.y s1.mask) ∧
    (∀ e ∈ ss.overlap s1.x s1.y s1.mask, (s1.inter e.key).mask ≠ 0) := by
  constructor
  · intro e he hne
    have hclose : (s1.x - e.key.x).natAbs ≤ 2 ∧ (s1.y - e.key.y).natAbs ≤ 2 := by
      by_contra hc
      push_neg at hc
      have hfar : 3 ≤ (s1.x - e.key.x).natAbs ∨ 3 ≤ (s1.y - e.key.y).natAbs := by
        by_cases h1 : 3 ≤ (s1.x - e.key.x).natAbs
        · exact Or.inl h1
        · exact Or.inr (hc (by omega))
      exact hne (inter_far_zero s1 e.key hfar)
    unfold SetStore.overlap
    rw [List.mem_flatMap]
    refine ⟨(e.key.x - (s1.x - 2)).toNat, List.mem_range.mpr (by omega), ?_⟩
    rw [List.mem_flatMap]
    refine ⟨(e.key.y - (s1.y - 2)).toNat, List.mem_range.mpr (by omega), ?_⟩
    rw [List.mem_filter]
    refine ⟨he, ?_⟩
    have hx : e.key.x = s1.x - 2 + ((e.key.x - (s1.x - 2)).toNat : Int) := by omega
    have hy : e.key.y = s1.y - 2 + ((e.key.y - (s1.y - 2)).toNat : Int) := by omega
    have hsym : (e.key.inter s1).mask ≠ 0 :=
      (inter_ne_zero_symm s1 e.key hs1 (hstore e he)).mp hne
    simp only [Bool.and_eq_true, decide_eq_true_eq]
    exact ⟨⟨by omega, by omega⟩, hsym⟩
  · intro e he
    unfold SetStore.overlap at he
    rw [List.mem_flatMap] at he
    obtain ⟨i, _, he⟩ := he
    rw [List.mem_flatMap] at he
    obtain ⟨j, _, he⟩ := he
    rw [List.mem_filter] at he
    obtain ⟨hmem, hcond⟩ := he
    simp only [Bool.and_eq_true, decide_eq_true_eq] at hcond
    exact (inter_ne_zero_symm s1 e.key hs1 (hstore e hmem)).mpr hcond.2


/-- C7: an element of the store is returned by `overlap` exactly when its
square set meets the query set (stated for 9-bit masks, the domain of the
data model). -/
theorem C7_overlap (ss : SetStore) (s1 : SquareSet) (hs1 : s1.mask < 512)
    (hstore : ∀ e ∈ ss.elems, e.key.mask < 512) :
    (∀ e ∈ ss.elems, (s1.inter e.key).mask ≠ 0 →
        e ∈ ss.overlap s1.x s1.y s1.mask) ∧
    (∀ e ∈ ss.overlap s1.x s1.y s1.mask, (s1.inter e.key).mask ≠ 0) :=
  overlap_spec ss s1 hs1 hstore

/-- C6: with a non-zero `params.seed`, `generate` does not read the stored
member seed or the entropy source, so two calls with the same parameters
produce identical results. -/
theorem C6_generate_deterministic (mseed1 e1 mseed2 e2 : Nat) (params : GameParams)
    (sfuel ifuel ofuel : Nat) (h : params.seed ≠ 0) :
    generate mseed1 e1 params sfuel ifuel ofuel
      = generate mseed2 e2 params sfuel ifuel ofuel := by
  unfold generate
  simp [h]

/-- Witness for C6: a 4x4 board with seed 5, under two distinct member seeds
and entropy values. -/
theorem C6_witness :
    ((⟨4, 4, 2, true, 0, 0, 5⟩ : GameParams).seed ≠ 0) ∧
    generate 17 99 ⟨4, 4, 2, true, 0, 0, 5⟩ 30 10 10
      = generate 23 1 ⟨4, 4, 2, true, 0, 0, 5⟩ 30 10 10 :=
  ⟨by decide, C6_generate_deterministic 17 99 23 1 _ 30 10 10 (by decide)⟩

/-- Witness for C7: a two-element store queried with an overlapping set. -/
theorem C7_witness :
    ((⟨[⟨⟨3, 3, 3⟩, 1, false⟩, ⟨⟨9, 9, 1⟩, 0, false⟩], []⟩ : SetStore).overlap 2 2 0x1FF).map
        (fun e => e.key) = [⟨3, 3, 3⟩] ∧
    (⟨⟨3, 3, 3⟩, 1, false⟩ : SSElem) ∈
      (⟨[⟨⟨3, 3, 3⟩, 1, false⟩, ⟨⟨9, 9, 1⟩, 0, false⟩], []⟩ : SetStore).overlap 2 2 0x1FF := by
  have h := C7_overlap ⟨[⟨⟨3, 3, 3⟩, 1, false⟩, ⟨⟨9, 9, 1⟩, 0, false⟩], []⟩ ⟨2, 2, 0x1FF⟩
    (by norm_num) (by decide)
  exact ⟨by decide, h.1 ⟨⟨3, 3, 3⟩, 1, false⟩ (by decide) (by decide)⟩

end Mine
